import Mathlib

/-!
Verification of the CSP crossword solver in `generate.py` (class
`CrosswordCreator`).  The solver's own methods are embedded faithfully below;
the `Crossword` collaborator (grid model) is not part of the sources and is
modelled from the specification.  Python strings are `List Char`; a Python
subscript `w[i]` that can raise `IndexError` is `wordGet`, returning in the
`Except Unit` monad whose `error` value stands for a raised exception.
Python `set`s and `dict`s are embedded as lists with a fixed, deterministic
iteration order, mirroring the reproducibility requirement of the spec.
-/

abbrev Word := List Char

/-- Python subscript `w[i]` (nonnegative index): the character, or a raised
`IndexError` when `i` is out of range. -/
def wordGet (w : Word) (i : Nat) : Except Unit Char :=
  match w.get? i with
  | some c => .ok c
  | none => .error ()

/-- Letters of `w1` at `i` and of `w2` at `j` both exist and agree. -/
def agreeAt (i j : Nat) (w1 w2 : Word) : Bool :=
  match w1.get? i, w2.get? j with
  | some c1, some c2 => c1 = c2
  | _, _ => false

/-- Direction of a grid slot. -/
inductive Direction where
  | across
  | down
deriving DecidableEq

/-- A grid slot: starting cell, direction, number of cells spanned
(`Variable` in `crossword.py`). -/
structure Variable where
  i : Nat
  j : Nat
  direction : Direction
  length : Nat
deriving DecidableEq

/-- Modelled from the spec: the `Crossword` collaborator (file `crossword.py`,
absent from the sources) supplies the variable set, the candidate word pool
and the overlap mapping (spec section 6).  `table` holds the pairs with a
defined overlap, in both orders with swapped indices (spec section 9); a pair
absent from `table` has no overlap.  Lists play the role of the Python sets
and dicts with a deterministic iteration order. -/
structure Crossword where
  vars : List Variable
  words : List Word
  table : List ((Variable × Variable) × (Nat × Nat))

/-- First-match lookup in the overlap table. -/
def lookupTable : List ((Variable × Variable) × (Nat × Nat)) → Variable → Variable →
    Option (Nat × Nat)
  | [], _, _ => none
  | e :: rest, x, y => if e.1 = (x, y) then some e.2 else lookupTable rest x y

/-- Modelled from the spec: `crossword.overlaps[(x, y)]` — the overlap index
pair of `x` and `y`, `none` when the slots do not cross. -/
def overlaps (cw : Crossword) (x y : Variable) : Option (Nat × Nat) :=
  lookupTable cw.table x y

/-- Modelled from the spec: `crossword.neighbors(v)` — the variables having a
defined overlap with `v`. -/
def neighbors (cw : Crossword) (v : Variable) : List Variable :=
  cw.vars.filter (fun u => decide (u ≠ v) && (overlaps cw v u).isSome)

/-- Position of a variable in the variable list (the key order of the
`self.domains` dict). -/
def varIndex : List Variable → Variable → Nat
  | [], _ => 0
  | u :: rest, v => if u = v then 0 else varIndex rest v + 1

/-- The domain store `self.domains`: one candidate word list per variable, in
the order of `cw.vars`. -/
abbrev Domains := List (List Word)

/-- `self.domains[v]`. -/
def domGet (cw : Crossword) (d : Domains) (v : Variable) : List Word :=
  (d.get? (varIndex cw.vars v)).getD []

/-- Replacement of `self.domains[v]`. -/
def domSet (cw : Crossword) (d : Domains) (v : Variable) (ws : List Word) : Domains :=
  d.set (varIndex cw.vars v) ws

/-- `__init__`: every variable's initial domain is a copy of the word pool. -/
def initialDomains (cw : Crossword) : Domains :=
  cw.vars.map (fun _ => cw.words)

/-- Sum of all domain sizes (used as the termination measure of `ac3`). -/
def totalSize (d : Domains) : Nat :=
  (d.map List.length).sum

/-- `enforce_node_consistency`: drop from each domain the words whose length
differs from the variable's length. -/
def enforceNodeConsistency (cw : Crossword) (d : Domains) : Domains :=
  List.zipWith (fun v ws => ws.filter (fun w => decide (w.length = v.length))) cw.vars d

/-- Inner loop of `revise`: scan `y`'s domain for a word agreeing with `w1`
at the overlap, stopping at the first agreement (`break`). -/
def findSupport (o0 o1 : Nat) (w1 : Word) : List Word → Except Unit Bool
  | [] => .ok false
  | w2 :: rest =>
    match wordGet w1 o0 with
    | .error e => .error e
    | .ok c1 =>
      match wordGet w2 o1 with
      | .error e => .error e
      | .ok c2 => if c1 = c2 then .ok true else findSupport o0 o1 w1 rest

/-- The `to_removed` list of `revise`: the words of `wx` without support in
`wy`. -/
def collectRemoved (o0 o1 : Nat) (wy : List Word) : List Word → Except Unit (List Word)
  | [] => .ok []
  | w1 :: rest =>
    match findSupport o0 o1 w1 wy with
    | .error e => .error e
    | .ok found =>
      match collectRemoved o0 o1 wy rest with
      | .error e => .error e
      | .ok tail => if found then .ok tail else .ok (w1 :: tail)

/-- `revise(x, y)`: remove from `domains[x]` the words with no possible
corresponding value in `domains[y]`; report whether a revision was made. -/
def revise (cw : Crossword) (d : Domains) (x y : Variable) : Except Unit (Bool × Domains) :=
  match overlaps cw x y with
  | none => .ok (false, d)
  | some (o0, o1) =>
    match collectRemoved o0 o1 (domGet cw d y) (domGet cw d x) with
    | .error e => .error e
    | .ok toRemoved =>
      .ok (decide (toRemoved.length ≠ 0),
        domSet cw d x ((domGet cw d x).filter (fun w => decide (w ∉ toRemoved))))

abbrev Arc := Variable × Variable

/-- The default initial worklist of `ac3`: every ordered pair with a defined
overlap (`arcs=None` in the source). -/
def initialArcs (cw : Crossword) : List Arc :=
  cw.table.map (fun e => e.1)

theorem collectRemoved_sublist {o0 o1 : Nat} {wy : List Word} :
    ∀ {wz : List Word} {t : List Word}, collectRemoved o0 o1 wy wz = .ok t →
      ∀ w ∈ t, w ∈ wz := by
  intro wz
  induction wz with
  | nil =>
    intro t h w hw
    simp only [collectRemoved] at h
    cases h
    simp at hw
  | cons w1 rest ih =>
    intro t h w hw
    simp only [collectRemoved] at h
    cases hfs : findSupport o0 o1 w1 wy with
    | error e => rw [hfs] at h; cases h
    | ok found =>
      rw [hfs] at h
      cases hcr : collectRemoved o0 o1 wy rest with
      | error e => rw [hcr] at h; cases h
      | ok tail =>
        rw [hcr] at h
        cases found with
        | true =>
          simp at h
          subst h
          exact List.mem_cons_of_mem _ (ih hcr w hw)
        | false =>
          simp at h
          subst h
          rcases List.mem_cons.mp hw with h1 | h2
          · exact h1 ▸ List.mem_cons_self _ _
          · exact List.mem_cons_of_mem _ (ih hcr w h2)

theorem list_set_getD_self {α : Type} (l : List α) (i : Nat) (a : α) :
    l.set i ((l.get? i).getD a) = l := by
  induction l generalizing i with
  | nil => simp
  | cons x rest ih =>
    cases i with
    | zero => simp
    | succ n =>
      simp only [List.set, List.cons.injEq, true_and]
      simpa using ih n

theorem filter_not_mem_nil (l : List Word) :
    l.filter (fun w => decide (w ∉ ([] : List Word))) = l := by
  induction l with
  | nil => rfl
  | cons x rest ih => simp [List.filter, ih]

/-- A reported non-revision leaves the domain store unchanged. -/
theorem revise_ok_false {cw : Crossword} {d d' : Domains} {x y : Variable}
    (h : revise cw d x y = .ok (false, d')) : d' = d := by
  unfold revise at h
  split at h
  · cases h; rfl
  · split at h
    · cases h
    · rename_i o0 o1 toRemoved hcr
      simp only [Except.ok.injEq, Prod.mk.injEq] at h
      obtain ⟨hb, hd⟩ := h
      have : toRemoved = [] := by
        cases toRemoved with
        | nil => rfl
        | cons a t => simp at hb
      subst this
      rw [filter_not_mem_nil] at hd
      rw [← hd]
      unfold domSet domGet
      exact list_set_getD_self d _ []

theorem totalSize_set (d : Domains) (i : Nat) (ws : List Word) (hi : i < d.length) :
    totalSize (d.set i ws) + ((d.get? i).getD []).length = totalSize d + ws.length := by
  induction d generalizing i with
  | nil => simp at hi
  | cons l rest ih =>
    cases i with
    | zero => simp [totalSize]; omega
    | succ n =>
      simp only [List.set, totalSize, List.map_cons, List.sum_cons, List.get?]
      have hn : n < rest.length := by simpa using hi
      have := ih n hn
      simp only [totalSize] at this
      omega

theorem length_filter_lt {l : List Word} {t : List Word} (a : Word)
    (ha : a ∈ l) (hat : a ∈ t) :
    (l.filter (fun w => decide (w ∉ t))).length < l.length := by
  induction l with
  | nil => simp at ha
  | cons x rest ih =>
    by_cases hx : x ∈ t
    · have : (List.filter (fun w => decide (w ∉ t)) (x :: rest)) =
        List.filter (fun w => decide (w ∉ t)) rest := by
        simp [List.filter, hx]
      rw [this]
      simp only [List.length_cons]
      calc (List.filter (fun w => decide (w ∉ t)) rest).length
          ≤ rest.length := List.length_filter_le _ _
        _ < rest.length + 1 := Nat.lt_succ_self _
    · have hxa : a ≠ x := fun h => hx (h ▸ hat)
      have ha' : a ∈ rest := by
        rcases List.mem_cons.mp ha with h | h
        · exact absurd h hxa
        · exact h
      have : (List.filter (fun w => decide (w ∉ t)) (x :: rest)) =
          x :: List.filter (fun w => decide (w ∉ t)) rest := by
        simp [List.filter, hx]
      rw [this]
      simp only [List.length_cons]
      exact Nat.succ_lt_succ (ih ha')

theorem get?_eq_some_of_ne_nil {l : List (List Word)} {i : Nat}
    (h : (l.get? i).getD [] ≠ []) : i < l.length := by
  by_contra hge
  push_neg at hge
  rw [List.get?_eq_none.mpr hge] at h
  simp at h

/-- A reported revision strictly shrinks the total domain size. -/
theorem revise_ok_true {cw : Crossword} {d d' : Domains} {x y : Variable}
    (h : revise cw d x y = .ok (true, d')) : totalSize d' < totalSize d := by
  unfold revise at h
  split at h
  · cases h
  · split at h
    · cases h
    · rename_i o0 o1 toRemoved hcr
      simp only [Except.ok.injEq, Prod.mk.injEq] at h
      obtain ⟨hb, hd⟩ := h
      have hne : toRemoved ≠ [] := by
        intro hnil
        rw [hnil] at hb
        simp at hb
      obtain ⟨a, hat⟩ := List.exists_mem_of_ne_nil toRemoved hne
      have hax : a ∈ domGet cw d x := collectRemoved_sublist hcr a hat
      have hlt : ((domGet cw d x).filter (fun w => decide (w ∉ toRemoved))).length <
          (domGet cw d x).length := length_filter_lt a hax hat
      have hxne : domGet cw d x ≠ [] := by
        intro hnil
        rw [hnil] at hax
        simp at hax
      have hi : varIndex cw.vars x < d.length := get?_eq_some_of_ne_nil hxne
      rw [← hd]
      unfold domSet
      have hts := totalSize_set d (varIndex cw.vars x)
        ((domGet cw d x).filter (fun w => decide (w ∉ toRemoved))) hi
      have hdg : (d.get? (varIndex cw.vars x)).getD [] = domGet cw d x := rfl
      rw [hdg] at hts
      omega

/-- The worklist loop of `ac3`: process one arc, re-enqueue the reverse arcs
of the revised variable's other neighbours on a revision, stop with `False`
on an emptied domain.  Falling off the end of the Python function body
returns `None`, embedded as the `none` result. -/
def ac3Loop (cw : Crossword) (d : Domains) : List Arc → Except Unit (Option Bool × Domains)
  | [] => .ok (none, d)
  | arc :: rest =>
    match h : revise cw d arc.1 arc.2 with
    | .error e => .error e
    | .ok (false, d') => ac3Loop cw d' rest
    | .ok (true, d') =>
      if (domGet cw d' arc.1).length = 0 then .ok (some false, d')
      else ac3Loop cw d'
        (rest ++ ((neighbors cw arc.1).filter (fun z => decide (z ≠ arc.2))).map
          (fun z => (z, arc.1)))
termination_by arcs => (totalSize d, arcs.length)
decreasing_by
  · have := revise_ok_false h
    subst this
    exact Prod.Lex.right _ (Nat.lt_succ_self _)
  · exact Prod.Lex.left _ _ (revise_ok_true h)

/-- `ac3(arcs)`: run the worklist loop on the given initial arcs (the caller
passes `initialArcs` for the Python default `arcs=None`). -/
def ac3 (cw : Crossword) (d : Domains) (arcs : List Arc) : Except Unit (Option Bool × Domains) :=
  ac3Loop cw d arcs

/-- The search assignment: a variable-to-word dict in insertion order. -/
abbrev Assignment := List (Variable × Word)

/-- Dict lookup `assignment[v]` (first matching key). -/
def aGet : Assignment → Variable → Option Word
  | [], _ => none
  | e :: rest, v => if e.1 = v then some e.2 else aGet rest v

/-- Python `v in assignment`. -/
def aHas (a : Assignment) (v : Variable) : Bool :=
  (aGet a v).isSome

/-- Dict update `assignment[v] = w`: overwrite in place, else append. -/
def aSet : Assignment → Variable → Word → Assignment
  | [], v, w => [(v, w)]
  | e :: rest, v, w => if e.1 = v then (v, w) :: rest else e :: aSet rest v w

/-- Dict removal `assignment.pop(v)`. -/
def aPop : Assignment → Variable → Assignment
  | [], _ => []
  | e :: rest, v => if e.1 = v then rest else e :: aPop rest v

/-- The key list of an assignment. -/
def aKeys (a : Assignment) : List Variable :=
  a.map (fun e => e.1)

/-- `assignment_complete`: every crossword variable carries a value. -/
def assignmentComplete (cw : Crossword) (a : Assignment) : Bool :=
  cw.vars.all (fun v => aHas a v)

/-- The `numpy.unique` duplicate test of `consistent`: all values distinct. -/
def pairwiseDistinct : List Word → Bool
  | [] => true
  | w :: rest => !(decide (w ∈ rest)) && pairwiseDistinct rest

/-- Overlap check of `consistent` for one assigned variable against its
neighbour list.  The dict subscript `self.crossword.overlaps[(var, n)]` is
total; the letter subscripts can raise. -/
def checkNeighbors (cw : Crossword) (a : Assignment) (var : Variable) (val : Word) :
    List Variable → Except Unit Bool
  | [] => .ok true
  | n :: rest =>
    match aGet a n with
    | none => checkNeighbors cw a var val rest
    | some w2 =>
      match overlaps cw var n with
      | none => .error ()
      | some (r0, r1) =>
        match wordGet val r0 with
        | .error e => .error e
        | .ok c1 =>
          match wordGet w2 r1 with
          | .error e => .error e
          | .ok c2 =>
            if c1 = c2 then checkNeighbors cw a var val rest else .ok false

/-- The per-item loop of `consistent`: length check, then overlap checks. -/
def consistentItems (cw : Crossword) (a : Assignment) :
    List (Variable × Word) → Except Unit Bool
  | [] => .ok true
  | (var, val) :: rest =>
    if val.length ≠ var.length then .ok false
    else
      match checkNeighbors cw a var val (neighbors cw var) with
      | .error e => .error e
      | .ok true => consistentItems cw a rest
      | .ok false => .ok false

/-- `consistent(assignment)`: distinct values, length match, overlap match. -/
def consistent (cw : Crossword) (a : Assignment) : Except Unit Bool :=
  if !pairwiseDistinct (a.map (fun e => e.2)) then .ok false
  else consistentItems cw a a

/-- The `result` dict of `order_domain_values`: word to elimination count. -/
abbrev CountMap := List (Word × Nat)

def cmGet : CountMap → Word → Option Nat
  | [], _ => none
  | e :: rest, w => if e.1 = w then some e.2 else cmGet rest w

def cmSet : CountMap → Word → Nat → CountMap
  | [], w, k => [(w, k)]
  | e :: rest, w, k => if e.1 = w then (w, k) :: rest else e :: cmSet rest w k

/-- Innermost loop of `order_domain_values`: count the disagreements of `w1`
with a neighbour's domain, writing each new count into the dict. -/
def countLoop (r0 r1 : Nat) (w1 : Word) :
    List Word → Nat → CountMap → Except Unit (Nat × CountMap)
  | [], nb, res => .ok (nb, res)
  | w2 :: rest, nb, res =>
    match wordGet w1 r0 with
    | .error e => .error e
    | .ok c1 =>
      match wordGet w2 r1 with
      | .error e => .error e
      | .ok c2 =>
        if c1 ≠ c2 then countLoop r0 r1 w1 rest (nb + 1) (cmSet res w1 (nb + 1))
        else countLoop r0 r1 w1 rest nb res

/-- Middle loop of `order_domain_values`: all candidate words of `var`
against one neighbour's domain. -/
def wordsLoop (r0 r1 : Nat) (wn : List Word) :
    List Word → CountMap → Except Unit CountMap
  | [], res => .ok res
  | w1 :: rest, res =>
    match countLoop r0 r1 w1 wn 0 res with
    | .error e => .error e
    | .ok (_, res') => wordsLoop r0 r1 wn rest res'

/-- Outer loop of `order_domain_values`: every unassigned neighbour of
`var`.  Every `n` handed to it comes from `neighbors cw var`, so its overlap
lookup is defined; the `none` branch stands for the subscript error Python
would raise on a `None` overlap. -/
def neighborLoop (cw : Crossword) (d : Domains) (a : Assignment) (var : Variable)
    (wordVar : List Word) : List Variable → CountMap → Except Unit CountMap
  | [], res => .ok res
  | n :: rest, res =>
    if aHas a n then neighborLoop cw d a var wordVar rest res
    else
      match overlaps cw var n with
      | none => .error ()
      | some (r0, r1) =>
        match wordsLoop r0 r1 (domGet cw d n) wordVar res with
        | .error e => .error e
        | .ok res' => neighborLoop cw d a var wordVar rest res'

/-- Stable ascending insertion by count, matching Python's stable `sorted`. -/
def insertByCount (p : Word × Nat) : List (Word × Nat) → List (Word × Nat)
  | [] => [p]
  | q :: rest => if p.2 ≤ q.2 then p :: q :: rest else q :: insertByCount p rest

/-- Stable sort by count (`sorted(word_var, key=result.__getitem__)`). -/
def sortByCount : List (Word × Nat) → List (Word × Nat)
  | [] => []
  | p :: rest => insertByCount p (sortByCount rest)

/-- Key extraction for the final `sorted` call: `result.__getitem__` raises
`KeyError` on a word missing from the dict. -/
def keyUp (res : CountMap) : List Word → Except Unit (List (Word × Nat))
  | [] => .ok []
  | w :: rest =>
    match cmGet res w with
    | none => .error ()
    | some k =>
      match keyUp res rest with
      | .error e => .error e
      | .ok tail => .ok ((w, k) :: tail)

/-- `order_domain_values(var, assignment)`: count, per candidate word, the
values it would rule out in unassigned neighbours' domains (the dict entry
being rewritten at each neighbour), then return the domain unsorted when the
dict stayed empty and otherwise sort the domain by the dict counts. -/
def orderDomainValues (cw : Crossword) (d : Domains) (var : Variable) (a : Assignment) :
    Except Unit (List Word) :=
  match neighborLoop cw d a var (domGet cw d var) (neighbors cw var) [] with
  | .error e => .error e
  | .ok res =>
    if res.length = 0 then .ok (domGet cw d var)
    else
      match keyUp res (domGet cw d var) with
      | .error e => .error e
      | .ok keyed => .ok ((sortByCount keyed).map (fun p => p.1))

/-- `select_unassigned_variable`: smallest current domain first, ties broken
by the first strictly highest neighbour count (`none` when every variable is
assigned, where Python would fault on an empty candidate list). -/
def minDomLen (cw : Crossword) (d : Domains) (u : Variable) (us : List Variable) : Nat :=
  us.foldl (fun acc v => min acc (domGet cw d v).length) (domGet cw d u).length

def pickMaxDegree (cw : Crossword) (c : Variable) (cs : List Variable) : Variable :=
  cs.foldl (fun best v =>
    if (neighbors cw v).length > (neighbors cw best).length then v else best) c

def selectUnassignedVariable (cw : Crossword) (d : Domains) (a : Assignment) :
    Option Variable :=
  match cw.vars.filter (fun v => !aHas a v) with
  | [] => none
  | u :: us =>
    match (u :: us).filter
        (fun v => decide ((domGet cw d v).length = minDomLen cw d u us)) with
    | [] => none
    | c :: cs => some (pickMaxDegree cw c cs)

/-- Candidate loop of `backtrack`: bind, check, recurse; the binding is
removed only when the recursive call fails — a candidate rejected by the
consistency check stays bound (mirroring the source). -/
def btLoop (cw : Crossword) (bt : Assignment → Except Unit (Option Assignment × Assignment))
    (var : Variable) : List Word → Assignment → Except Unit (Option Assignment × Assignment)
  | [], a => .ok (none, a)
  | v :: rest, a =>
    match consistent cw (aSet a var v) with
    | .error e => .error e
    | .ok false => btLoop cw bt var rest (aSet a var v)
    | .ok true =>
      match bt (aSet a var v) with
      | .error e => .error e
      | .ok (some r, s) => .ok (some r, s)
      | .ok (none, s) => btLoop cw bt var rest (aPop s var)

/-- `backtrack(assignment)`, with a fuel argument bounding the recursion
depth (the depth never exceeds the number of unassigned variables, proved
below, so the fuel chosen by `solve` is never exhausted).  The result pairs
the Python return value with the final state of the mutated dict. -/
def backtrackF (cw : Crossword) (d : Domains) :
    Nat → Assignment → Except Unit (Option Assignment × Assignment)
  | 0, _ => .error ()
  | fuel + 1, a =>
    if assignmentComplete cw a then .ok (some a, a)
    else
      match selectUnassignedVariable cw d a with
      | none => .error ()
      | some var =>
        match orderDomainValues cw d var a with
        | .error e => .error e
        | .ok vals => btLoop cw (backtrackF cw d fuel) var vals a

/-- `solve()`: node consistency, then `ac3` (return value ignored, domains
kept), then backtracking from the empty assignment. -/
def solve (cw : Crossword) : Except Unit (Option Assignment) :=
  match ac3 cw (enforceNodeConsistency cw (initialDomains cw)) (initialArcs cw) with
  | .error e => .error e
  | .ok (_, d2) =>
    match backtrackF cw d2 (cw.vars.length + 1) [] with
    | .error e => .error e
    | .ok (res, _) => .ok res

/-- Word literal helper. -/
def wd (s : String) : Word := s.toList

/-! Concrete puzzle instances used as counterexamples and witnesses. -/

def varX1 : Variable := ⟨0, 0, .across, 1⟩
def varY1 : Variable := ⟨1, 0, .across, 1⟩

/-- Two one-cell slots, no crossing, a single candidate word. -/
def cw1 : Crossword := ⟨[varX1, varY1], [wd "a"], []⟩

def d1 : Domains := enforceNodeConsistency cw1 (initialDomains cw1)

def varA2 : Variable := ⟨0, 0, .across, 2⟩
def varB2 : Variable := ⟨0, 0, .down, 3⟩
def varC2 : Variable := ⟨2, 0, .across, 3⟩

/-- Across slot A (length 2) crossed at its first cell by down slot B
(length 3), itself crossed at its second cell by across slot C (length 3,
third cell). -/
def cw2 : Crossword :=
  ⟨[varA2, varB2, varC2],
   [wd "aa", wd "ba", wd "aaa", wd "aab", wd "bbb"],
   [((varA2, varB2), (0, 0)), ((varB2, varA2), (0, 0)),
    ((varB2, varC2), (1, 2)), ((varC2, varB2), (2, 1))]⟩

/-- The missed solution of `cw2`. -/
def sol2 : Assignment := [(varA2, wd "aa"), (varB2, wd "aab"), (varC2, wd "aaa")]

def varX6 : Variable := ⟨0, 0, .across, 1⟩
def varY6 : Variable := ⟨0, 0, .down, 2⟩

/-- Two crossing slots with no compatible word pair: `ac3` empties a domain. -/
def cw6 : Crossword :=
  ⟨[varX6, varY6], [wd "a", wd "bb"],
   [((varX6, varY6), (0, 0)), ((varY6, varX6), (0, 0))]⟩

def d6 : Domains := enforceNodeConsistency cw6 (initialDomains cw6)

def varA4 : Variable := ⟨0, 0, .across, 2⟩
def varB4 : Variable := ⟨0, 0, .down, 3⟩
def varC4 : Variable := ⟨0, 1, .down, 4⟩

/-- One slot A with two unassigned crossing neighbours B and C. -/
def cw4 : Crossword :=
  ⟨[varA4, varB4, varC4],
   [wd "ab", wd "ba", wd "baa", wd "bab", wd "bac", wd "baaa", wd "bbbb", wd "aaaa"],
   [((varA4, varB4), (0, 0)), ((varB4, varA4), (0, 0)),
    ((varA4, varC4), (1, 0)), ((varC4, varA4), (0, 1))]⟩

def d4 : Domains := enforceNodeConsistency cw4 (initialDomains cw4)

def varP9 : Variable := ⟨0, 0, .across, 3⟩
def varQ9 : Variable := ⟨0, 2, .down, 3⟩

/-- Two crossing length-3 slots; used with an assignment holding a word
shorter than the overlap position. -/
def cw9 : Crossword :=
  ⟨[varP9, varQ9], [wd "cat", wd "tax"],
   [((varP9, varQ9), (0, 2)), ((varQ9, varP9), (2, 0))]⟩

def asg9 : Assignment := [(varP9, wd "cat"), (varQ9, wd "ax")]

def varV5 : Variable := ⟨0, 0, .across, 1⟩

/-- A one-slot puzzle with a single fitting word. -/
def cw5 : Crossword := ⟨[varV5], [wd "a"], []⟩

deriving instance DecidableEq for Except

/-- Fuel-driven evaluator for the `ac3` worklist loop, used to compute the
well-founded `ac3Loop` on concrete instances (`none` = fuel exhausted). -/
def ac3Fuel (cw : Crossword) : Nat → Domains → List Arc →
    Option (Except Unit (Option Bool × Domains))
  | 0, _, _ => none
  | fuel + 1, d, arcs =>
    match arcs with
    | [] => some (.ok (none, d))
    | arc :: rest =>
      match revise cw d arc.1 arc.2 with
      | .error e => some (.error e)
      | .ok (false, d') => ac3Fuel cw fuel d' rest
      | .ok (true, d') =>
        if (domGet cw d' arc.1).length = 0 then some (.ok (some false, d'))
        else ac3Fuel cw fuel d'
          (rest ++ ((neighbors cw arc.1).filter (fun z => decide (z ≠ arc.2))).map
            (fun z => (z, arc.1)))

/-- Whenever the fuelled evaluator completes, it computes `ac3Loop`. -/
theorem ac3Fuel_sound (cw : Crossword) :
    ∀ (fuel : Nat) (d : Domains) (arcs : List Arc) (r : Except Unit (Option Bool × Domains)),
      ac3Fuel cw fuel d arcs = some r → ac3Loop cw d arcs = r := by
  intro fuel
  induction fuel with
  | zero => intro d arcs r h; simp [ac3Fuel] at h
  | succ n ih =>
    intro d arcs r h
    cases arcs with
    | nil =>
      simp [ac3Fuel] at h
      rw [ac3Loop, ← h]
    | cons arc rest =>
      simp only [ac3Fuel] at h
      rw [ac3Loop]
      split
      · rename_i e he
        rw [he] at h
        simp at h
        rw [← h]
      · rename_i d' he
        rw [he] at h
        simp only [] at h
        exact ih _ _ _ h
      · rename_i d' he
        rw [he] at h
        simp only [] at h
        by_cases hlen : (domGet cw d' arc.1).length = 0
        · rw [if_pos hlen]
          rw [if_pos hlen] at h
          simp at h
          rw [← h]
        · rw [if_neg hlen]
          rw [if_neg hlen] at h
          exact ih _ _ _ h

/-- The domain store of `cw2` after node consistency (and, as it happens,
after arc consistency). -/
def d2p : Domains :=
  [[wd "aa", wd "ba"], [wd "aaa", wd "aab", wd "bbb"], [wd "aaa", wd "aab", wd "bbb"]]

/-- Modelled from the spec (section 4.6): the elimination count of a
candidate word `w1` of `var` — how many words it would rule out, summed over
the domains of all unassigned neighbours of `var`. -/
def specElimSum (cw : Crossword) (d : Domains) (var : Variable) (a : Assignment)
    (w1 : Word) : Nat :=
  ((neighbors cw var).filter (fun n => !aHas a n)).foldl
    (fun acc n =>
      match overlaps cw var n with
      | none => acc
      | some (i, j) => acc + ((domGet cw d n).filter (fun w2 => !agreeAt i j w1 w2)).length)
    0

/-- C1: the claim is refuted by the code.  On the two-slot puzzle `cw1`
(one shared candidate word, no crossing), `backtrack` run on the empty
assignment returns failure, yet the final state of the assignment dict still
holds the binding of the second slot: the tentative binding rejected by the
consistency check is never removed (`assignment.pop(var)` sits inside the
`if self.consistent(...)` branch), so the assignment on failure differs from
the one given at entry. -/
theorem claim_C1 :
    backtrackF cw1 d1 3 [] = .ok (none, [(varY1, wd "a")]) ∧
      ([(varY1, wd "a")] : Assignment) ≠ ([] : Assignment) :=
  ⟨by decide, by decide⟩

/-- C2: the claim is refuted by the code.  The puzzle `cw2` has the complete
consistent assignment `sol2` drawn from the initial domains, yet `solve`
returns the no-solution result: a stale binding left by the misplaced
`assignment.pop(var)` blocks the branch containing the solution. -/
theorem claim_C2 :
    solve cw2 = .ok none ∧
      assignmentComplete cw2 sol2 = true ∧
      consistent cw2 sol2 = .ok true ∧
      sol2.all (fun e => decide (e.2 ∈ cw2.words)) = true := by
  refine ⟨?_, by decide, by decide, by decide⟩
  have hac : ac3 cw2 (enforceNodeConsistency cw2 (initialDomains cw2)) (initialArcs cw2) =
      .ok (none, d2p) := ac3Fuel_sound cw2 32 _ _ _ (by decide)
  unfold solve
  rw [hac]
  decide

/-- C4: the claim is refuted by the code.  On puzzle `cw4` (slot A crossed
by two unassigned neighbours B and C), `order_domain_values` returns the
domain of A ordered `["ab", "ba"]`, although the elimination counts summed
over both neighbours are 4 for `"ab"` and 2 for `"ba"`: the counter is reset
at every neighbour and the dict entry overwritten, so the code sorts by the
last neighbour's count instead of the claimed sum. -/
theorem claim_C4 :
    orderDomainValues cw4 d4 varA4 [] = .ok [wd "ab", wd "ba"] ∧
      specElimSum cw4 d4 varA4 [] (wd "ab") = 4 ∧
      specElimSum cw4 d4 varA4 [] (wd "ba") = 2 := by
  refine ⟨by decide, by decide, by decide⟩

/-- C6: half the claim is refuted by the code.  On `cw6` a revision empties
a domain and `ac3` returns `False` (as claimed); but on `cw1` the worklist
empties without an empty domain and `ac3` returns `None` — the function body
has no `return True`, contradicting its docstring and the claim. -/
theorem claim_C6 :
    ac3 cw6 d6 (initialArcs cw6) = .ok (some false, [[], [wd "bb"]]) ∧
      ac3 cw1 d1 (initialArcs cw1) = .ok (none, d1) ∧
      (none : Option Bool) ≠ some true :=
  ⟨ac3Fuel_sound cw6 8 _ _ _ (by decide), ac3Fuel_sound cw1 8 _ _ _ (by decide), by decide⟩

/-- C9, counterexample: an assignment whose word `"ax"` has length 2 while
its slot has length 3 — the claim demands the consistency predicate return
false — but the code raises an `IndexError` (subscript at the overlap
position of the neighbouring word) before reaching that word's length
check. -/
theorem claim_C9_counterexample :
    (wd "ax").length ≠ varQ9.length ∧
      aGet asg9 varQ9 = some (wd "ax") ∧
      consistent cw9 asg9 = .error () ∧
      consistent cw9 asg9 ≠ .ok false :=
  ⟨by decide, by decide, by decide, by decide⟩

theorem varIndex_get? {vars : List Variable} {v : Variable} (hv : v ∈ vars) :
    vars.get? (varIndex vars v) = some v := by
  induction vars with
  | nil => cases hv
  | cons u rest ih =>
    by_cases huv : u = v
    · subst huv; simp [varIndex]
    · have hv' : v ∈ rest := by
        rcases List.mem_cons.mp hv with h | h
        · exact absurd h.symm huv
        · exact h
      simp only [varIndex, if_neg huv, List.get?_cons_succ]
      exact ih hv'

theorem varIndex_lt {vars : List Variable} {v : Variable} (hv : v ∈ vars) :
    varIndex vars v < vars.length :=
  List.get?_eq_some.mp (varIndex_get? hv) |>.choose

theorem zipWith_domGet (vars : List Variable) (f : Variable → List Word → List Word) :
    ∀ (d : Domains) (v : Variable), v ∈ vars → d.length = vars.length →
      ((List.zipWith f vars d).get? (varIndex vars v)).getD [] =
        f v ((d.get? (varIndex vars v)).getD []) := by
  induction vars with
  | nil => intro d v hv; cases hv
  | cons u rest ih =>
    intro d v hv hlen
    cases d with
    | nil => simp at hlen
    | cons ws drest =>
      by_cases huv : u = v
      · subst huv; simp [varIndex]
      · have hv' : v ∈ rest := by
          rcases List.mem_cons.mp hv with h | h
          · exact absurd h.symm huv
          · exact h
        have hlen' : drest.length = rest.length := by simpa using hlen
        simp only [varIndex, if_neg huv, List.zipWith, List.get?_cons_succ]
        exact ih drest v hv' hlen'

/-- C8: after `enforce_node_consistency`, each variable's domain is exactly
the filtering of its previous domain to the words of the variable's length:
every remaining word has matching length, and no word of matching length was
removed. -/
theorem claim_C8 (cw : Crossword) (d : Domains) (v : Variable)
    (hv : v ∈ cw.vars) (hlen : d.length = cw.vars.length) :
    domGet cw (enforceNodeConsistency cw d) v =
        (domGet cw d v).filter (fun w => decide (w.length = v.length)) ∧
      ∀ w ∈ domGet cw (enforceNodeConsistency cw d) v, w.length = v.length := by
  have heq : domGet cw (enforceNodeConsistency cw d) v =
      (domGet cw d v).filter (fun w => decide (w.length = v.length)) := by
    unfold domGet enforceNodeConsistency
    exact zipWith_domGet cw.vars _ d v hv hlen
  refine ⟨heq, ?_⟩
  intro w hw
  rw [heq] at hw
  have := List.of_mem_filter hw
  simpa using this

theorem claim_C8_witness :
    domGet cw4 (enforceNodeConsistency cw4 (initialDomains cw4)) varB4 =
        (domGet cw4 (initialDomains cw4) varB4).filter
          (fun w => decide (w.length = varB4.length)) ∧
      ∀ w ∈ domGet cw4 (enforceNodeConsistency cw4 (initialDomains cw4)) varB4,
        w.length = varB4.length :=
  claim_C8 cw4 (initialDomains cw4) varB4 (by decide) (by decide)

theorem btLoop_some {cw : Crossword}
    {bt : Assignment → Except Unit (Option Assignment × Assignment)}
    (hbt : ∀ a r s, bt a = .ok (some r, s) →
      assignmentComplete cw r = true ∧ r = s ∧ (consistent cw r = .ok true ∨ r = a))
    (var : Variable) :
    ∀ (vals : List Word) (a r s : Assignment),
      btLoop cw bt var vals a = .ok (some r, s) →
      assignmentComplete cw r = true ∧ r = s ∧ consistent cw r = .ok true := by
  intro vals
  induction vals with
  | nil =>
    intro a r s h
    simp [btLoop] at h
  | cons v rest ih =>
    intro a r s h
    simp only [btLoop] at h
    split at h
    · cases h
    · exact ih _ r s h
    · rename_i hcons
      split at h
      · cases h
      · rename_i r' s' hbta
        simp only [Except.ok.injEq, Prod.mk.injEq, Option.some.injEq] at h
        obtain ⟨hr, hs⟩ := h
        subst hr hs
        obtain ⟨h1, h2, h3⟩ := hbt _ _ _ hbta
        refine ⟨h1, h2, ?_⟩
        rcases h3 with h3 | h3
        · exact h3
        · rw [h3]; exact hcons
      · exact ih _ r s h

theorem backtrackF_some (cw : Crossword) (d : Domains) :
    ∀ (fuel : Nat) (a r s : Assignment),
      backtrackF cw d fuel a = .ok (some r, s) →
      assignmentComplete cw r = true ∧ r = s ∧
        (consistent cw r = .ok true ∨ r = a) := by
  intro fuel
  induction fuel with
  | zero =>
    intro a r s h
    simp [backtrackF] at h
  | succ n ih =>
    intro a r s h
    simp only [backtrackF] at h
    split at h
    · rename_i hc
      simp only [Except.ok.injEq, Prod.mk.injEq, Option.some.injEq] at h
      obtain ⟨hr, hs⟩ := h
      subst hr
      subst hs
      exact ⟨hc, rfl, Or.inr rfl⟩
    · split at h
      · cases h
      · rename_i var hsel
        split at h
        · cases h
        · rename_i vals hord
          have := btLoop_some (fun a r s hh => ih a r s hh) var vals a r s h
          exact ⟨this.1, this.2.1, Or.inl this.2.2⟩

theorem mem_aKeys_aSet {a : Assignment} {v u : Variable} {w : Word} :
    u ∈ aKeys (aSet a v w) ↔ u ∈ aKeys a ∨ u = v := by
  induction a with
  | nil => simp [aSet, aKeys]
  | cons e rest ih =>
    by_cases hev : e.1 = v
    · simp only [aSet, if_pos hev, aKeys, List.map_cons, List.mem_cons]
      subst hev
      constructor
      · rintro (h | h)
        · exact Or.inr h
        · exact Or.inl (Or.inr h)
      · rintro ((h | h) | h)
        · exact Or.inl h
        · exact Or.inr h
        · exact Or.inl h
    · simp only [aSet, if_neg hev, aKeys, List.map_cons, List.mem_cons]
      rw [show (List.map (fun e => e.1) (aSet rest v w)) = aKeys (aSet rest v w) from rfl,
        show (List.map (fun e => e.1) rest) = aKeys rest from rfl]
      rw [ih]
      tauto

theorem mem_aKeys_aPop {a : Assignment} {v u : Variable} :
    u ∈ aKeys (aPop a v) → u ∈ aKeys a := by
  induction a with
  | nil => simp [aPop]
  | cons e rest ih =>
    by_cases hev : e.1 = v
    · simp only [aPop, if_pos hev, aKeys, List.map_cons, List.mem_cons]
      exact fun h => Or.inr h
    · simp only [aPop, if_neg hev, aKeys, List.map_cons, List.mem_cons]
      rintro (h | h)
      · exact Or.inl h
      · exact Or.inr (ih h)

theorem pickMaxDegree_mem (cw : Crossword) (c : Variable) (cs : List Variable) :
    pickMaxDegree cw c cs ∈ c :: cs := by
  unfold pickMaxDegree
  have hfold : ∀ (l : List Variable) (b : Variable) (S : List Variable), b ∈ S →
      (∀ x ∈ l, x ∈ S) →
      l.foldl (fun best v =>
        if (neighbors cw v).length > (neighbors cw best).length then v else best) b ∈ S := by
    intro l
    induction l with
    | nil => intro b S hb _; simpa using hb
    | cons x xs ihl =>
      intro b S hb hl
      simp only [List.foldl_cons]
      split
      · exact ihl x S (hl x (List.mem_cons_self _ _))
          (fun y hy => hl y (List.mem_cons_of_mem _ hy))
      · exact ihl b S hb (fun y hy => hl y (List.mem_cons_of_mem _ hy))
  exact hfold cs c (c :: cs) (List.mem_cons_self _ _)
    (fun y hy => List.mem_cons_of_mem _ hy)

theorem select_mem {cw : Crossword} {d : Domains} {a : Assignment} {var : Variable}
    (h : selectUnassignedVariable cw d a = some var) :
    var ∈ cw.vars ∧ aHas a var = false := by
  unfold selectUnassignedVariable at h
  split at h
  · cases h
  · rename_i u us huv
    split at h
    · cases h
    · rename_i c cs hfil
      simp only [Option.some.injEq] at h
      have hcs : ∀ x ∈ c :: cs, x ∈ cw.vars.filter (fun v => !aHas a v) := by
        intro x hx
        have hrw : (c :: cs) = (u :: us).filter
            (fun v => decide ((domGet cw d v).length = minDomLen cw d u us)) := hfil.symm
        rw [hrw] at hx
        have hx2 := List.mem_filter.mp hx
        rw [huv]
        exact hx2.1
      have hv : var ∈ c :: cs := by
        rw [← h]
        exact pickMaxDegree_mem cw c cs
      have := List.mem_filter.mp (hcs var hv)
      exact ⟨this.1, by simpa using this.2⟩

theorem aKeys_aSet_of_has {a : Assignment} {v : Variable} {w : Word}
    (h : aHas a v = true) : aKeys (aSet a v w) = aKeys a := by
  induction a with
  | nil => simp [aHas, aGet] at h
  | cons e rest ih =>
    by_cases hev : e.1 = v
    · simp [aSet, if_pos hev, aKeys, hev]
    · have h' : aHas rest v = true := by
        simpa [aHas, aGet, hev] using h
      simp [aSet, if_neg hev, aKeys] at ih ⊢
      exact ih h'

theorem aKeys_aSet_of_not {a : Assignment} {v : Variable} {w : Word}
    (h : aHas a v = false) : aKeys (aSet a v w) = aKeys a ++ [v] := by
  induction a with
  | nil => simp [aSet, aKeys]
  | cons e rest ih =>
    by_cases hev : e.1 = v
    · simp [aHas, aGet, hev] at h
    · have h' : aHas rest v = false := by
        simpa [aHas, aGet, hev] using h
      simp [aSet, if_neg hev, aKeys] at ih ⊢
      exact ih h'

theorem aHas_iff_mem_aKeys {a : Assignment} {v : Variable} :
    aHas a v = true ↔ v ∈ aKeys a := by
  induction a with
  | nil => simp [aHas, aGet, aKeys]
  | cons e rest ih =>
    by_cases hev : e.1 = v
    · simp [aHas, aGet, hev, aKeys]
    · have hstep : aHas ((e :: rest) : Assignment) v = aHas rest v := by
        simp [aHas, aGet, if_neg hev]
      rw [hstep, ih]
      simp only [aKeys, List.map_cons, List.mem_cons]
      constructor
      · exact fun h => Or.inr h
      · rintro (h | h)
        · exact absurd h.symm hev
        · exact h

theorem aSet_nodup {a : Assignment} {v : Variable} {w : Word}
    (h : (aKeys a).Nodup) : (aKeys (aSet a v w)).Nodup := by
  cases hv : aHas a v with
  | true => rw [aKeys_aSet_of_has hv]; exact h
  | false =>
    rw [aKeys_aSet_of_not hv]
    refine List.Nodup.append h (List.nodup_singleton v) ?_
    intro x hx hx2
    simp only [List.mem_singleton] at hx2
    subst hx2
    exact absurd (aHas_iff_mem_aKeys.mpr hx) (by simp [hv])

theorem aKeys_aPop_sublist (a : Assignment) (v : Variable) :
    (aKeys (aPop a v)).Sublist (aKeys a) := by
  induction a with
  | nil => simp [aPop]
  | cons e rest ih =>
    by_cases hev : e.1 = v
    · simp only [aPop, if_pos hev, aKeys, List.map_cons]
      exact List.sublist_cons_of_sublist _ (List.Sublist.refl _)
    · simp only [aPop, if_neg hev, aKeys, List.map_cons]
      exact List.Sublist.cons₂ _ ih

theorem aPop_nodup {a : Assignment} {v : Variable}
    (h : (aKeys a).Nodup) : (aKeys (aPop a v)).Nodup :=
  (aKeys_aPop_sublist a v).nodup h

theorem btLoop_keys {cw : Crossword}
    {bt : Assignment → Except Unit (Option Assignment × Assignment)} {var : Variable}
    (hbt : ∀ a res s, bt a = .ok (res, s) →
      ((aKeys a).Nodup → (aKeys s).Nodup) ∧ (∀ u ∈ aKeys s, u ∈ aKeys a ∨ u ∈ cw.vars))
    (hvar : var ∈ cw.vars) :
    ∀ (vals : List Word) (a : Assignment) (res : Option Assignment) (s : Assignment),
      btLoop cw bt var vals a = .ok (res, s) →
      ((aKeys a).Nodup → (aKeys s).Nodup) ∧ (∀ u ∈ aKeys s, u ∈ aKeys a ∨ u ∈ cw.vars) := by
  intro vals
  induction vals with
  | nil =>
    intro a res s h
    simp only [btLoop, Except.ok.injEq, Prod.mk.injEq] at h
    rw [← h.2]
    exact ⟨fun hn => hn, fun u hu => Or.inl hu⟩
  | cons v rest ih =>
    intro a res s h
    simp only [btLoop] at h
    split at h
    · cases h
    · have hrec := ih _ res s h
      refine ⟨fun hn => hrec.1 (aSet_nodup hn), fun u hu => ?_⟩
      rcases hrec.2 u hu with h1 | h1
      · rcases mem_aKeys_aSet.mp h1 with h2 | h2
        · exact Or.inl h2
        · exact Or.inr (h2 ▸ hvar)
      · exact Or.inr h1
    · split at h
      · cases h
      · rename_i r s' hbta
        simp only [Except.ok.injEq, Prod.mk.injEq] at h
        obtain ⟨hres, hs⟩ := h
        subst hs
        have hrec := hbt _ _ _ hbta
        refine ⟨fun hn => hrec.1 (aSet_nodup hn), fun u hu => ?_⟩
        rcases hrec.2 u hu with h1 | h1
        · rcases mem_aKeys_aSet.mp h1 with h2 | h2
          · exact Or.inl h2
          · exact Or.inr (h2 ▸ hvar)
        · exact Or.inr h1
      · rename_i s' hbta
        have hbta2 := hbt _ _ _ hbta
        have hrec := ih _ res s h
        refine ⟨fun hn => hrec.1 (aPop_nodup (hbta2.1 (aSet_nodup hn))), fun u hu => ?_⟩
        rcases hrec.2 u hu with h1 | h1
        · have h2 := mem_aKeys_aPop h1
          rcases hbta2.2 u h2 with h3 | h3
          · rcases mem_aKeys_aSet.mp h3 with h4 | h4
            · exact Or.inl h4
            · exact Or.inr (h4 ▸ hvar)
          · exact Or.inr h3
        · exact Or.inr h1

theorem backtrackF_keys (cw : Crossword) (d : Domains) :
    ∀ (fuel : Nat) (a : Assignment) (res : Option Assignment) (s : Assignment),
      backtrackF cw d fuel a = .ok (res, s) →
      ((aKeys a).Nodup → (aKeys s).Nodup) ∧ (∀ u ∈ aKeys s, u ∈ aKeys a ∨ u ∈ cw.vars) := by
  intro fuel
  induction fuel with
  | zero =>
    intro a res s h
    simp [backtrackF] at h
  | succ n ih =>
    intro a res s h
    simp only [backtrackF] at h
    split at h
    · simp only [Except.ok.injEq, Prod.mk.injEq] at h
      rw [← h.2]
      exact ⟨fun hn => hn, fun u hu => Or.inl hu⟩
    · split at h
      · cases h
      · rename_i var hsel
        split at h
        · cases h
        · rename_i vals hord
          exact btLoop_keys (fun a' res' s' hh => ih a' res' s' hh)
            (select_mem hsel).1 vals a res s h

/-- C5: any assignment returned by `solve` (rather than the no-solution
result) is complete — every puzzle variable carries exactly one word: all
variables are keys, the key list is duplicate-free and contains only puzzle
variables — and passes the consistency predicate. -/
theorem claim_C5 (cw : Crossword) (r : Assignment) (h : solve cw = .ok (some r)) :
    assignmentComplete cw r = true ∧
      (∀ v ∈ cw.vars, aHas r v = true) ∧
      (aKeys r).Nodup ∧
      (∀ u ∈ aKeys r, u ∈ cw.vars) ∧
      consistent cw r = .ok true := by
  unfold solve at h
  split at h
  · cases h
  · rename_i fst d2 hac
    split at h
    · cases h
    · rename_i res s hbt
      simp only [Except.ok.injEq] at h
      subst h
      obtain ⟨hcomp, hrs, hcons⟩ := backtrackF_some cw d2 (cw.vars.length + 1) [] r s hbt
      subst hrs
      have hkeys := backtrackF_keys cw d2 (cw.vars.length + 1) [] (some r) r hbt
      have hnil : (aKeys ([] : Assignment)).Nodup := by simp [aKeys]
      refine ⟨hcomp, ?_, hkeys.1 hnil, ?_, ?_⟩
      · intro v hv
        have := List.all_eq_true.mp hcomp v hv
        simpa using this
      · intro u hu
        rcases hkeys.2 u hu with h1 | h1
        · simp [aKeys] at h1
        · exact h1
      · rcases hcons with h1 | h1
        · exact h1
        · subst h1; rfl

theorem claim_C5_witness :
    assignmentComplete cw5 [(varV5, wd "a")] = true ∧
      (∀ v ∈ cw5.vars, aHas [(varV5, wd "a")] v = true) ∧
      (aKeys [(varV5, wd "a")]).Nodup ∧
      (∀ u ∈ aKeys [(varV5, wd "a")], u ∈ cw5.vars) ∧
      consistent cw5 [(varV5, wd "a")] = .ok true :=
  claim_C5 cw5 [(varV5, wd "a")] (by
    have hac : ac3 cw5 (enforceNodeConsistency cw5 (initialDomains cw5)) (initialArcs cw5) =
        .ok (none, [[wd "a"]]) := ac3Fuel_sound cw5 8 _ _ _ (by decide)
    unfold solve
    rw [hac]
    decide)

/-- The overlap constraint between two assigned entries: satisfied when the
pair has no overlap, and otherwise when the letters at the overlap agree. -/
def pairAgrees (cw : Crossword) (e1 e2 : Variable × Word) : Bool :=
  match overlaps cw e1.1 e2.1 with
  | none => true
  | some (i, j) => agreeAt i j e1.2 e2.2

/-- Modelled from the spec (section 4.4): the claim's consistency conditions
stated directly — pairwise-distinct values, each word of its variable's
length, and agreement of every assigned pair at their overlap. -/
def specConsistent (cw : Crossword) (a : Assignment) : Bool :=
  pairwiseDistinct (a.map (fun e => e.2)) &&
    a.all (fun e => decide (e.2.length = e.1.length)) &&
    a.all (fun e1 => a.all (fun e2 => pairAgrees cw e1 e2))

/-- What `consistent`'s inner loop computes for one neighbour. -/
def checkOne (cw : Crossword) (a : Assignment) (var : Variable) (val : Word)
    (n : Variable) : Bool :=
  match aGet a n with
  | none => true
  | some w2 => pairAgrees cw (var, val) (n, w2)

/-- Both overlap positions within the word lengths of the pair (the domain
on which Python's letter subscripts cannot raise). -/
def inRangePair (cw : Crossword) (e1 e2 : Variable × Word) : Bool :=
  match overlaps cw e1.1 e2.1 with
  | none => true
  | some (i, j) => decide (i < e1.2.length) && decide (j < e2.2.length)

theorem wordGet_of_lt {w : Word} {i : Nat} (h : i < w.length) :
    ∃ c, w.get? i = some c ∧ wordGet w i = .ok c := by
  have hc : w.get? i = some (w.get ⟨i, h⟩) := List.get?_eq_get h
  exact ⟨w.get ⟨i, h⟩, hc, by unfold wordGet; rw [hc]⟩

theorem aGet_mem {a : Assignment} {k : Variable} {v : Word}
    (h : aGet a k = some v) : (k, v) ∈ a := by
  induction a with
  | nil => simp [aGet] at h
  | cons e rest ih =>
    by_cases hek : e.1 = k
    · simp only [aGet, if_pos hek, Option.some.injEq] at h
      subst h
      subst hek
      exact List.mem_cons_self _ _
    · simp only [aGet, if_neg hek] at h
      exact List.mem_cons_of_mem _ (ih h)

theorem mem_aGet {a : Assignment} {k : Variable} {v : Word}
    (hnd : (aKeys a).Nodup) (h : (k, v) ∈ a) : aGet a k = some v := by
  induction a with
  | nil => simp at h
  | cons e rest ih =>
    have hnd2 : e.1 ∉ aKeys rest ∧ (aKeys rest).Nodup := by
      have hre : aKeys ((e :: rest) : Assignment) = e.1 :: aKeys rest := rfl
      rw [hre] at hnd
      exact List.nodup_cons.mp hnd
    rcases List.mem_cons.mp h with h1 | h1
    · subst h1
      simp [aGet]
    · have hk : k ∈ aKeys rest := by
        simp only [aKeys, List.mem_map]
        exact ⟨(k, v), h1, rfl⟩
      have hek : e.1 ≠ k := fun hc => hnd2.1 (hc ▸ hk)
      simp only [aGet, if_neg hek]
      exact ih hnd2.2 h1

theorem mem_neighbors {cw : Crossword} {v n : Variable} :
    n ∈ neighbors cw v ↔ n ∈ cw.vars ∧ n ≠ v ∧ (overlaps cw v n).isSome = true := by
  unfold neighbors
  rw [List.mem_filter]
  simp

theorem lookupTable_mem {t : List ((Variable × Variable) × (Nat × Nat))} {x y : Variable}
    {o : Nat × Nat} (h : lookupTable t x y = some o) : ((x, y), o) ∈ t := by
  induction t with
  | nil => simp [lookupTable] at h
  | cons e rest ih =>
    by_cases he : e.1 = (x, y)
    · simp only [lookupTable, if_pos he, Option.some.injEq] at h
      subst h
      rw [← he]
      exact List.mem_cons_self _ _
    · simp only [lookupTable, if_neg he] at h
      exact List.mem_cons_of_mem _ (ih h)

theorem overlaps_mem_table {cw : Crossword} {x y : Variable} {o : Nat × Nat}
    (h : overlaps cw x y = some o) : ((x, y), o) ∈ cw.table :=
  lookupTable_mem h

theorem overlaps_self_none {cw : Crossword}
    (hirr : cw.table.all (fun e => decide (e.1.1 ≠ e.1.2)) = true) (v : Variable) :
    overlaps cw v v = none := by
  cases ho : overlaps cw v v with
  | none => rfl
  | some o =>
    have hmem := overlaps_mem_table ho
    have := List.all_eq_true.mp hirr _ hmem
    simp at this

theorem checkNeighbors_eval (cw : Crossword) (a : Assignment) (var : Variable) (val : Word) :
    ∀ (ns : List Variable),
      (∀ n ∈ ns, (overlaps cw var n).isSome = true) →
      (∀ n ∈ ns, ∀ w2, aGet a n = some w2 → ∀ i j,
        overlaps cw var n = some (i, j) → i < val.length ∧ j < w2.length) →
      checkNeighbors cw a var val ns = .ok (ns.all (checkOne cw a var val)) := by
  intro ns
  induction ns with
  | nil => intro _ _; rfl
  | cons n rest ih =>
    intro hsome hrange
    have hsome' : ∀ m ∈ rest, (overlaps cw var m).isSome = true :=
      fun m hm => hsome m (List.mem_cons_of_mem _ hm)
    have hrange' : ∀ m ∈ rest, ∀ w2, aGet a m = some w2 → ∀ i j,
        overlaps cw var m = some (i, j) → i < val.length ∧ j < w2.length :=
      fun m hm => hrange m (List.mem_cons_of_mem _ hm)
    simp only [checkNeighbors]
    cases hg : aGet a n with
    | none =>
      have hco : checkOne cw a var val n = true := by
        unfold checkOne
        rw [hg]
      simp only [List.all_cons, hco, Bool.true_and]
      exact ih hsome' hrange'
    | some w2 =>
      obtain ⟨⟨i, j⟩, ho⟩ := Option.isSome_iff_exists.mp (hsome n (List.mem_cons_self _ _))
      rw [ho]
      simp only []
      obtain ⟨hi, hj⟩ := hrange n (List.mem_cons_self _ _) w2 hg i j ho
      obtain ⟨c1, hc1, hw1⟩ := wordGet_of_lt hi
      obtain ⟨c2, hc2, hw2⟩ := wordGet_of_lt hj
      rw [hw1, hw2]
      simp only []
      have hco : checkOne cw a var val n = agreeAt i j val w2 := by
        unfold checkOne
        rw [hg]
        unfold pairAgrees
        simp only []
        rw [ho]
      have hag : agreeAt i j val w2 = decide (c1 = c2) := by
        unfold agreeAt
        rw [hc1, hc2]
      by_cases hcc : c1 = c2
      · rw [if_pos hcc]
        simp only [List.all_cons, hco, hag, decide_eq_true hcc, Bool.true_and]
        exact ih hsome' hrange'
      · rw [if_neg hcc]
        simp only [List.all_cons, hco, hag]
        rw [decide_eq_false hcc]
        simp

theorem consistentItems_eval (cw : Crossword) (a : Assignment) :
    ∀ (items : List (Variable × Word)),
      (∀ e ∈ items, ∀ n, ∀ w2, aGet a n = some w2 → ∀ i j,
        overlaps cw e.1 n = some (i, j) → i < e.2.length ∧ j < w2.length) →
      consistentItems cw a items = .ok (items.all (fun e =>
        decide (e.2.length = e.1.length) &&
          (neighbors cw e.1).all (checkOne cw a e.1 e.2))) := by
  intro items
  induction items with
  | nil => intro _; rfl
  | cons e rest ih =>
    intro hrange
    obtain ⟨var, val⟩ := e
    simp only [consistentItems]
    by_cases hlen : val.length ≠ var.length
    · rw [if_pos hlen]
      simp only [List.all_cons]
      have : decide (val.length = var.length) = false := by
        simp [hlen]
      rw [this]
      simp
    · rw [if_neg hlen]
      push_neg at hlen
      have hcn := checkNeighbors_eval cw a var val (neighbors cw var)
        (fun n hn => (mem_neighbors.mp hn).2.2)
        (fun n _ w2 hw i j ho =>
          hrange (var, val) (List.mem_cons_self _ _) n w2 hw i j ho)
      rw [hcn]
      cases hall : (neighbors cw var).all (checkOne cw a var val) with
      | true =>
        simp only [List.all_cons, decide_eq_true hlen, hall, Bool.true_and, Bool.and_true]
        exact ih (fun e2 he2 => hrange e2 (List.mem_cons_of_mem _ he2))
      | false =>
        simp only [List.all_cons, hall, Bool.and_false]
        simp

/-- C9, amended: on every assignment with duplicate-free keys drawn from the
puzzle's variables and whose overlap positions fall inside the assigned
words' lengths (the situation of every assignment arising in `solve`), the
consistency predicate returns exactly the claim's verdict: false iff two
assigned variables share a word, or an assigned word's length differs from
its variable's, or two assigned crossing variables disagree at their
overlap; true in all other cases.  Out of that range the code can raise
instead of returning false (see the counterexample). -/
theorem claim_C9 (cw : Crossword) (a : Assignment)
    (hknd : (aKeys a).Nodup)
    (hsub : ∀ u ∈ aKeys a, u ∈ cw.vars)
    (hirr : cw.table.all (fun e => decide (e.1.1 ≠ e.1.2)) = true)
    (hrange : a.all (fun e1 => a.all (fun e2 => inRangePair cw e1 e2)) = true) :
    consistent cw a = .ok (specConsistent cw a) := by
  have hbool : ∀ (b c : Bool), (b = true ↔ c = true) → b = c := by
    intro b c h
    cases b <;> cases c <;> simp at h ⊢
  have hrange2 : ∀ e1 ∈ a, ∀ e2 ∈ a, ∀ i j, overlaps cw e1.1 e2.1 = some (i, j) →
      i < e1.2.length ∧ j < e2.2.length := by
    intro e1 h1 e2 h2 i j ho
    have hx := List.all_eq_true.mp (List.all_eq_true.mp hrange e1 h1) e2 h2
    unfold inRangePair at hx
    rw [ho] at hx
    simp at hx
    exact hx
  unfold consistent specConsistent
  cases hpd : pairwiseDistinct (a.map (fun e => e.2)) with
  | false =>
    rw [if_pos (by decide : (!false) = true)]
    simp
  | true =>
    rw [if_neg (by decide : ¬ ((!true) = true))]
    have hitems := consistentItems_eval cw a a
      (fun e he n w2 hw i j ho => hrange2 e he (n, w2) (aGet_mem hw) i j ho)
    rw [hitems]
    congr 1
    apply hbool
    constructor
    · intro hall
      have h1 := List.all_eq_true.mp hall
      simp only [Bool.true_and, Bool.and_eq_true]
      constructor
      · rw [List.all_eq_true]
        intro e he
        exact (Bool.and_eq_true_iff.mp (h1 e he)).1
      · rw [List.all_eq_true]
        intro e1 he1
        rw [List.all_eq_true]
        intro e2 he2
        have hck := (Bool.and_eq_true_iff.mp (h1 e1 he1)).2
        cases ho : overlaps cw e1.1 e2.1 with
        | none =>
          unfold pairAgrees
          rw [ho]
        | some p =>
          obtain ⟨i, j⟩ := p
          have hne : e2.1 ≠ e1.1 := by
            intro hcontra
            rw [hcontra, overlaps_self_none hirr] at ho
            cases ho
          have hkey : e2.1 ∈ aKeys a := by
            simp only [aKeys, List.mem_map]
            exact ⟨e2, he2, rfl⟩
          have hnb : e2.1 ∈ neighbors cw e1.1 :=
            mem_neighbors.mpr ⟨hsub _ hkey, hne, by rw [ho]; rfl⟩
          have hc := List.all_eq_true.mp hck e2.1 hnb
          unfold checkOne at hc
          rw [mem_aGet hknd he2] at hc
          exact hc
    · intro hspec
      simp only [Bool.true_and, Bool.and_eq_true] at hspec
      obtain ⟨hlen, hpair⟩ := hspec
      rw [List.all_eq_true]
      intro e he
      rw [Bool.and_eq_true]
      refine ⟨List.all_eq_true.mp hlen e he, ?_⟩
      rw [List.all_eq_true]
      intro n hn
      unfold checkOne
      cases hg : aGet a n with
      | none => rfl
      | some w2 =>
        have hmem2 : ((n, w2) : Variable × Word) ∈ a := aGet_mem hg
        exact List.all_eq_true.mp (List.all_eq_true.mp hpair e he) (n, w2) hmem2

theorem claim_C9_witness :
    consistent cw2 sol2 = .ok (specConsistent cw2 sol2) :=
  claim_C9 cw2 sol2 (by decide) (by decide) (by decide) (by decide)

theorem findSupport_ok_true {o0 o1 : Nat} {w1 : Word} :
    ∀ {wy : List Word}, findSupport o0 o1 w1 wy = .ok true →
      ∃ w2 ∈ wy, agreeAt o0 o1 w1 w2 = true := by
  intro wy
  induction wy with
  | nil => intro h; simp [findSupport] at h
  | cons w2 rest ih =>
    intro h
    simp only [findSupport] at h
    cases h1 : wordGet w1 o0 with
    | error e => rw [h1] at h; cases h
    | ok c1 =>
      rw [h1] at h
      cases h2 : wordGet w2 o1 with
      | error e => rw [h2] at h; cases h
      | ok c2 =>
        rw [h2] at h
        simp only [] at h
        have hg1 : w1.get? o0 = some c1 := by
          unfold wordGet at h1
          cases hx : w1.get? o0 <;> rw [hx] at h1 <;> simp at h1
          rw [h1]
        have hg2 : w2.get? o1 = some c2 := by
          unfold wordGet at h2
          cases hx : w2.get? o1 <;> rw [hx] at h2 <;> simp at h2
          rw [h2]
        by_cases hc : c1 = c2
        · refine ⟨w2, List.mem_cons_self _ _, ?_⟩
          unfold agreeAt
          rw [hg1, hg2]
          simp [hc]
        · rw [if_neg hc] at h
          obtain ⟨w', hw', ha⟩ := ih h
          exact ⟨w', List.mem_cons_of_mem _ hw', ha⟩

theorem findSupport_ok_false {o0 o1 : Nat} {w1 : Word} :
    ∀ {wy : List Word}, findSupport o0 o1 w1 wy = .ok false →
      ∀ w2 ∈ wy, agreeAt o0 o1 w1 w2 = false := by
  intro wy
  induction wy with
  | nil => intro _ w2 hw; simp at hw
  | cons wh rest ih =>
    intro h w2 hw
    simp only [findSupport] at h
    cases h1 : wordGet w1 o0 with
    | error e => rw [h1] at h; cases h
    | ok c1 =>
      rw [h1] at h
      cases h2 : wordGet wh o1 with
      | error e => rw [h2] at h; cases h
      | ok c2 =>
        rw [h2] at h
        simp only [] at h
        have hg1 : w1.get? o0 = some c1 := by
          unfold wordGet at h1
          cases hx : w1.get? o0 <;> rw [hx] at h1 <;> simp at h1
          rw [h1]
        have hg2 : wh.get? o1 = some c2 := by
          unfold wordGet at h2
          cases hx : wh.get? o1 <;> rw [hx] at h2 <;> simp at h2
          rw [h2]
        by_cases hc : c1 = c2
        · rw [if_pos hc] at h; cases h
        · rw [if_neg hc] at h
          rcases List.mem_cons.mp hw with h3 | h3
          · subst h3
            unfold agreeAt
            rw [hg1, hg2]
            simp [hc]
          · exact ih h w2 h3

theorem collectRemoved_support {o0 o1 : Nat} {wy : List Word} :
    ∀ {wz t : List Word}, collectRemoved o0 o1 wy wz = .ok t →
      ∀ w1 ∈ wz, w1 ∉ t → findSupport o0 o1 w1 wy = .ok true := by
  intro wz
  induction wz with
  | nil => intro t h w1 hw; simp at hw
  | cons wh rest ih =>
    intro t h w1 hw hnt
    simp only [collectRemoved] at h
    cases hfs : findSupport o0 o1 wh wy with
    | error e => rw [hfs] at h; cases h
    | ok found =>
      rw [hfs] at h
      cases hcr : collectRemoved o0 o1 wy rest with
      | error e => rw [hcr] at h; cases h
      | ok tail =>
        rw [hcr] at h
        cases found with
        | true =>
          simp only [if_pos] at h
          cases h
          rcases List.mem_cons.mp hw with h3 | h3
          · subst h3; exact hfs
          · exact ih hcr w1 h3 hnt
        | false =>
          simp only [Bool.false_eq_true, if_false, Except.ok.injEq] at h
          subst h
          rcases List.mem_cons.mp hw with h3 | h3
          · exact absurd (h3 ▸ List.mem_cons_self wh tail) hnt
          · exact ih hcr w1 h3 (fun hc => hnt (List.mem_cons_of_mem _ hc))

theorem collectRemoved_no_support {o0 o1 : Nat} {wy : List Word} :
    ∀ {wz t : List Word}, collectRemoved o0 o1 wy wz = .ok t →
      ∀ w ∈ t, findSupport o0 o1 w wy = .ok false := by
  intro wz
  induction wz with
  | nil =>
    intro t h w hw
    simp only [collectRemoved, Except.ok.injEq] at h
    subst h
    simp at hw
  | cons wh rest ih =>
    intro t h w hw
    simp only [collectRemoved] at h
    cases hfs : findSupport o0 o1 wh wy with
    | error e => rw [hfs] at h; cases h
    | ok found =>
      rw [hfs] at h
      cases hcr : collectRemoved o0 o1 wy rest with
      | error e => rw [hcr] at h; cases h
      | ok tail =>
        rw [hcr] at h
        cases found with
        | true =>
          simp only [if_pos] at h
          cases h
          exact ih hcr w hw
        | false =>
          simp only [Bool.false_eq_true, if_false, Except.ok.injEq] at h
          subst h
          rcases List.mem_cons.mp hw with h3 | h3
          · subst h3; exact hfs
          · exact ih hcr w h3

theorem agreeAt_symm (i j : Nat) (w1 w2 : Word) :
    agreeAt i j w1 w2 = agreeAt j i w2 w1 := by
  unfold agreeAt
  cases w1.get? i <;> cases w2.get? j <;> simp [eq_comm]

theorem get?_set_self {α : Type} (l : List α) (i : Nat) (a : α) (h : i < l.length) :
    (l.set i a).get? i = some a := by
  induction l generalizing i with
  | nil => simp at h
  | cons x rest ih =>
    cases i with
    | zero => rfl
    | succ n =>
      simp only [List.set, List.get?_cons_succ]
      exact ih n (by simpa using h)

theorem get?_set_ne {α : Type} (l : List α) (i k : Nat) (a : α) (h : i ≠ k) :
    (l.set i a).get? k = l.get? k := by
  induction l generalizing i k with
  | nil => simp
  | cons x rest ih =>
    cases i with
    | zero =>
      cases k with
      | zero => exact absurd rfl h
      | succ m => rfl
    | succ n =>
      cases k with
      | zero => rfl
      | succ m =>
        simp only [List.set, List.get?_cons_succ]
        exact ih n m (fun hc => h (by rw [hc]))

theorem varIndex_inj {vars : List Variable} {v x : Variable}
    (hv : v ∈ vars) (hx : x ∈ vars)
    (h : varIndex vars v = varIndex vars x) : v = x := by
  have h1 := varIndex_get? hv
  have h2 := varIndex_get? hx
  rw [h] at h1
  rw [h1] at h2
  exact (Option.some.injEq _ _ ▸ h2)

theorem domGet_domSet_ne {cw : Crossword} {d : Domains} {x v : Variable} {ws : List Word}
    (hv : v ∈ cw.vars) (hx : x ∈ cw.vars) (hne : v ≠ x) :
    domGet cw (domSet cw d x ws) v = domGet cw d v := by
  unfold domGet domSet
  rw [get?_set_ne]
  intro hc
  exact hne (varIndex_inj hv hx hc.symm)

theorem domGet_domSet_self {cw : Crossword} {d : Domains} {x : Variable} {ws : List Word}
    (hx : x ∈ cw.vars) (hdlen : d.length = cw.vars.length) :
    domGet cw (domSet cw d x ws) x = ws := by
  unfold domGet domSet
  rw [get?_set_self]
  · rfl
  · rw [hdlen]
    exact varIndex_lt hx

theorem revise_ok_some {cw : Crossword} {d d' : Domains} {x y : Variable}
    {b : Bool} {o0 o1 : Nat}
    (ho : overlaps cw x y = some (o0, o1))
    (h : revise cw d x y = .ok (b, d')) :
    ∃ t, collectRemoved o0 o1 (domGet cw d y) (domGet cw d x) = .ok t ∧
      d' = domSet cw d x ((domGet cw d x).filter (fun w => decide (w ∉ t))) ∧
      (b = false → t = []) := by
  unfold revise at h
  rw [ho] at h
  simp only [] at h
  cases hcr : collectRemoved o0 o1 (domGet cw d y) (domGet cw d x) with
  | error e => rw [hcr] at h; cases h
  | ok t =>
    rw [hcr] at h
    simp only [Except.ok.injEq, Prod.mk.injEq] at h
    obtain ⟨hb, hd⟩ := h
    refine ⟨t, rfl, hd.symm, ?_⟩
    intro hbf
    rw [hbf] at hb
    cases t with
    | nil => rfl
    | cons a rest => simp at hb

/-- Arc support: every word of `x`'s domain has an agreeing partner in `y`'s
domain at their overlap (vacuous when the pair has no overlap). -/
def arcOK (cw : Crossword) (d : Domains) (x y : Variable) : Prop :=
  ∀ i j, overlaps cw x y = some (i, j) →
    ∀ w1 ∈ domGet cw d x, ∃ w2 ∈ domGet cw d y, agreeAt i j w1 w2 = true

/-- The AC-3 worklist invariant: every overlapping ordered pair is either
still queued or already supported. -/
def ac3Inv (cw : Crossword) (d : Domains) (arcs : List Arc) : Prop :=
  ∀ x y o, overlaps cw x y = some o → ((x, y) ∈ arcs ∨ arcOK cw d x y)

theorem overlaps_swap {cw : Crossword}
    (hsym : ∀ e ∈ cw.table, overlaps cw e.1.2 e.1.1 = some (e.2.2, e.2.1))
    {x y : Variable} {i j : Nat} (h : overlaps cw x y = some (i, j)) :
    overlaps cw y x = some (j, i) :=
  hsym ((x, y), (i, j)) (overlaps_mem_table h)

theorem overlaps_vars {cw : Crossword}
    (hvars : ∀ e ∈ cw.table, e.1.1 ∈ cw.vars ∧ e.1.2 ∈ cw.vars)
    {x y : Variable} {o : Nat × Nat} (h : overlaps cw x y = some o) :
    x ∈ cw.vars ∧ y ∈ cw.vars :=
  hvars ((x, y), o) (overlaps_mem_table h)

theorem overlaps_ne {cw : Crossword}
    (hirr : cw.table.all (fun e => decide (e.1.1 ≠ e.1.2)) = true)
    {x y : Variable} {o : Nat × Nat} (h : overlaps cw x y = some o) : x ≠ y := by
  intro hc
  subst hc
  rw [overlaps_self_none hirr] at h
  cases h

theorem ac3Loop_cons (cw : Crossword) (d : Domains) (arc : Arc) (rest : List Arc) :
    ac3Loop cw d (arc :: rest) =
      match revise cw d arc.1 arc.2 with
      | .error e => .error e
      | .ok (false, d') => ac3Loop cw d' rest
      | .ok (true, d') =>
        if (domGet cw d' arc.1).length = 0 then .ok (some false, d')
        else ac3Loop cw d'
          (rest ++ ((neighbors cw arc.1).filter (fun z => decide (z ≠ arc.2))).map
            (fun z => (z, arc.1))) := by
  rw [ac3Loop]
  cases hrev : revise cw d arc.1 arc.2 with
  | error e => rfl
  | ok p =>
    obtain ⟨b, d2⟩ := p
    cases b <;> rfl

theorem ac3Loop_sound (cw : Crossword)
    (hsym : ∀ e ∈ cw.table, overlaps cw e.1.2 e.1.1 = some (e.2.2, e.2.1))
    (hirr : cw.table.all (fun e => decide (e.1.1 ≠ e.1.2)) = true)
    (hvars : ∀ e ∈ cw.table, e.1.1 ∈ cw.vars ∧ e.1.2 ∈ cw.vars) :
    ∀ (d : Domains) (arcs : List Arc) (dr : Domains),
      d.length = cw.vars.length →
      ac3Loop cw d arcs = .ok (none, dr) →
      ac3Inv cw d arcs →
      ∀ x y, arcOK cw dr x y := by
  intro d arcs
  induction d, arcs using ac3Loop.induct cw with
  | case1 d =>
    intro dr hdlen hrun hinv x y
    rw [ac3Loop] at hrun
    simp only [Except.ok.injEq, Prod.mk.injEq, true_and] at hrun
    subst hrun
    intro i j ho w1 hw1
    rcases hinv x y (i, j) ho with hmem | hok
    · simp at hmem
    · exact hok i j ho w1 hw1
  | case2 d arc rest e herr =>
    intro dr hdlen hrun hinv x y
    rw [ac3Loop_cons, herr] at hrun
    cases hrun
  | case3 d arc rest d' hrev ih =>
    intro dr hdlen hrun hinv x y
    rw [ac3Loop_cons, hrev] at hrun
    simp only [] at hrun
    have hd : d' = d := revise_ok_false hrev
    subst hd
    refine ih dr hdlen hrun ?_ x y
    intro p q o hpq
    rcases hinv p q o hpq with hmem | hok
    · rcases List.mem_cons.mp hmem with heq | hrest
      · right
        have hp : p = arc.1 := by
          have := congrArg Prod.fst heq
          simpa using this
        have hq : q = arc.2 := by
          have := congrArg Prod.snd heq
          simpa using this
        subst hp
        subst hq
        intro i j ho w1 hw1
        obtain ⟨t, hcr, _, ht⟩ := revise_ok_some ho hrev
        have htnil : t = [] := ht rfl
        subst htnil
        have hfs := collectRemoved_support hcr w1 hw1 (by simp)
        exact findSupport_ok_true hfs
      · exact Or.inl hrest
    · exact Or.inr hok
  | case4 d arc rest d' hrev hlen =>
    intro dr hdlen hrun hinv x y
    rw [ac3Loop_cons, hrev] at hrun
    simp only [] at hrun
    rw [if_pos hlen] at hrun
    cases hrun
  | case5 d arc rest d' hrev hlen ih =>
    intro dr hdlen hrun hinv x y
    rw [ac3Loop_cons, hrev] at hrun
    simp only [] at hrun
    rw [if_neg hlen] at hrun
    have hosome : ∃ o0 o1, overlaps cw arc.1 arc.2 = some (o0, o1) := by
      cases hov : overlaps cw arc.1 arc.2 with
      | none =>
        exfalso
        unfold revise at hrev
        rw [hov] at hrev
        simp at hrev
      | some p =>
        obtain ⟨a, b⟩ := p
        exact ⟨a, b, rfl⟩
    obtain ⟨o0, o1, hov⟩ := hosome
    obtain ⟨t, hcr, hd', _⟩ := revise_ok_some hov hrev
    have hx1 : arc.1 ∈ cw.vars := (overlaps_vars hvars hov).1
    have hx2 : arc.2 ∈ cw.vars := (overlaps_vars hvars hov).2
    have hne12 : arc.1 ≠ arc.2 := overlaps_ne hirr hov
    have hdlen2 : d'.length = cw.vars.length := by
      rw [hd']
      unfold domSet
      rw [List.length_set]
      exact hdlen
    have hdom1 : domGet cw d' arc.1 =
        (domGet cw d arc.1).filter (fun w => decide (w ∉ t)) := by
      rw [hd']
      exact domGet_domSet_self hx1 hdlen
    refine ih dr hdlen2 hrun ?_ x y
    intro p q o hpq
    obtain ⟨i, j⟩ := o
    by_cases hqx : q = arc.1
    · subst hqx
      by_cases hpy : p = arc.2
      · subst hpy
        rcases hinv arc.2 arc.1 (i, j) hpq with hmem | hok
        · rcases List.mem_cons.mp hmem with heq | hrest
          · exfalso
            have h2 : arc.2 = arc.1 := by
              have := congrArg Prod.fst heq
              simpa using this
            exact hne12 h2.symm
          · exact Or.inl (List.mem_append_left _ hrest)
        · right
          intro i2 j2 ho2 w1 hw1
          have hdom2 : domGet cw d' arc.2 = domGet cw d arc.2 := by
            rw [hd']
            exact domGet_domSet_ne hx2 hx1 (fun hc => hne12 hc.symm)
          rw [hdom2] at hw1
          obtain ⟨w2, hw2, hagree⟩ := hok i2 j2 ho2 w1 hw1
          have hswap := overlaps_swap hsym hov
          rw [ho2] at hswap
          simp only [Option.some.injEq, Prod.mk.injEq] at hswap
          obtain ⟨hi2, hj2⟩ := hswap
          have hw2s : w2 ∈ domGet cw d' arc.1 := by
            rw [hdom1, List.mem_filter]
            refine ⟨hw2, ?_⟩
            simp only [decide_eq_true_eq]
            intro hwt
            have hnos := collectRemoved_no_support hcr w2 hwt
            have hfalse := findSupport_ok_false hnos w1 hw1
            have htrue : agreeAt o1 o0 w1 w2 = true := by
              rw [← hi2, ← hj2]
              exact hagree
            rw [agreeAt_symm] at htrue
            rw [hfalse] at htrue
            cases htrue
          exact ⟨w2, hw2s, hagree⟩
      · left
        refine List.mem_append_right _ ?_
        rw [List.mem_map]
        refine ⟨p, ?_, rfl⟩
        rw [List.mem_filter]
        constructor
        · refine mem_neighbors.mpr ⟨(overlaps_vars hvars hpq).1, overlaps_ne hirr hpq, ?_⟩
          rw [overlaps_swap hsym hpq]
          rfl
        · simp [hpy]
    · rcases hinv p q (i, j) hpq with hmem | hok
      · rcases List.mem_cons.mp hmem with heq | hrest
        · right
          have hp : p = arc.1 := by
            have := congrArg Prod.fst heq
            simpa using this
          have hq : q = arc.2 := by
            have := congrArg Prod.snd heq
            simpa using this
          subst hp
          subst hq
          intro i2 j2 ho2 w1 hw1
          rw [hov] at ho2
          simp only [Option.some.injEq, Prod.mk.injEq] at ho2
          obtain ⟨hi2, hj2⟩ := ho2
          rw [hdom1, List.mem_filter] at hw1
          obtain ⟨hw1d, hw1t⟩ := hw1
          simp only [decide_eq_true_eq] at hw1t
          have hfs := collectRemoved_support hcr w1 hw1d hw1t
          obtain ⟨w2, hw2, hagree⟩ := findSupport_ok_true hfs
          have hdom2 : domGet cw d' arc.2 = domGet cw d arc.2 := by
            rw [hd']
            exact domGet_domSet_ne hx2 hx1 (fun hc => hne12 hc.symm)
          rw [hdom2]
          rw [← hi2, ← hj2]
          exact ⟨w2, hw2, hagree⟩
        · exact Or.inl (List.mem_append_left _ hrest)
      · right
        intro i2 j2 ho2 w1 hw1
        have hdomq : domGet cw d' q = domGet cw d q := by
          rw [hd']
          exact domGet_domSet_ne (overlaps_vars hvars hpq).2 hx1 hqx
        have hw1d : w1 ∈ domGet cw d p := by
          by_cases hpx : p = arc.1
          · subst hpx
            rw [hdom1, List.mem_filter] at hw1
            exact hw1.1
          · rw [hd', domGet_domSet_ne (overlaps_vars hvars hpq).1 hx1 hpx] at hw1
            exact hw1
        obtain ⟨w2, hw2, hagree⟩ := hok i2 j2 ho2 w1 hw1d
        rw [hdomq]
        exact ⟨w2, hw2, hagree⟩

theorem ac3Inv_initial (cw : Crossword) (d : Domains) :
    ac3Inv cw d (initialArcs cw) := by
  intro x y o ho
  left
  unfold initialArcs
  exact List.mem_map.mpr ⟨((x, y), o), overlaps_mem_table ho, rfl⟩

/-- C7: after `ac3` run from the initial arc list of all overlapping pairs
terminates with its worklist exhausted (the non-`False` outcome), every word
kept in any variable's domain has, for each neighbour with overlap `(i, j)`,
at least one word in the neighbour's domain whose `j`-th letter equals its
`i`-th letter. -/
theorem claim_C7 (cw : Crossword) (d dr : Domains)
    (hdlen : d.length = cw.vars.length)
    (hsym : ∀ e ∈ cw.table, overlaps cw e.1.2 e.1.1 = some (e.2.2, e.2.1))
    (hirr : cw.table.all (fun e => decide (e.1.1 ≠ e.1.2)) = true)
    (hvars : ∀ e ∈ cw.table, e.1.1 ∈ cw.vars ∧ e.1.2 ∈ cw.vars)
    (hrun : ac3 cw d (initialArcs cw) = .ok (none, dr)) :
    ∀ x : Variable, ∀ y ∈ neighbors cw x, ∀ i j, overlaps cw x y = some (i, j) →
      ∀ w1 ∈ domGet cw dr x, ∃ w2 ∈ domGet cw dr y, agreeAt i j w1 w2 = true := by
  intro x y _ i j ho w1 hw1
  exact ac3Loop_sound cw hsym hirr hvars d (initialArcs cw) dr hdlen hrun
    (ac3Inv_initial cw d) x y i j ho w1 hw1

theorem claim_C7_witness :
    ∃ w2 ∈ domGet cw2 d2p varB2, agreeAt 0 0 (wd "aa") w2 = true :=
  claim_C7 cw2 d2p d2p (by decide) (by decide) (by decide) (by decide)
    (ac3Fuel_sound cw2 32 _ _ _ (by decide))
    varA2 varB2 (by decide) 0 0 (by decide) (wd "aa") (by decide)

/-- Arc support as a computable check: every word of `x`'s domain has an
agreeing partner in `y`'s domain at overlap `o`. -/
def arcOKb (cw : Crossword) (d : Domains) (x y : Variable) (o : Nat × Nat) : Bool :=
  (domGet cw d x).all (fun w1 => (domGet cw d y).any (fun w2 => agreeAt o.1 o.2 w1 w2))

/-- The whole domain store is arc consistent (computable form of the
property established by a successful `ac3` run). -/
def arcConsistentB (cw : Crossword) (d : Domains) : Bool :=
  cw.table.all (fun e => arcOKb cw d e.1.1 e.1.2 e.2)

/-- Every letter position demanded by an overlap exists in the current
domains, so no subscript of `revise` can raise. -/
def domainsInRange (cw : Crossword) (d : Domains) : Bool :=
  cw.table.all (fun e =>
    (domGet cw d e.1.1).all (fun w => decide (e.2.1 < w.length)) &&
      (domGet cw d e.1.2).all (fun w => decide (e.2.2 < w.length)))

theorem findSupport_of_support {o0 o1 : Nat} {w1 : Word}
    (hw1 : ∃ c, w1.get? o0 = some c) :
    ∀ {wy : List Word}, (∀ w2 ∈ wy, ∃ c, w2.get? o1 = some c) →
      (∃ w2 ∈ wy, agreeAt o0 o1 w1 w2 = true) →
      findSupport o0 o1 w1 wy = .ok true := by
  intro wy
  induction wy with
  | nil =>
    intro _ hsup
    obtain ⟨w2, hw2, _⟩ := hsup
    simp at hw2
  | cons wh rest ih =>
    intro hdef hsup
    obtain ⟨c1, hc1⟩ := hw1
    obtain ⟨c2, hc2⟩ := hdef wh (List.mem_cons_self _ _)
    simp only [findSupport]
    have hwg1 : wordGet w1 o0 = .ok c1 := by unfold wordGet; rw [hc1]
    have hwg2 : wordGet wh o1 = .ok c2 := by unfold wordGet; rw [hc2]
    rw [hwg1, hwg2]
    simp only []
    by_cases hcc : c1 = c2
    · rw [if_pos hcc]
    · rw [if_neg hcc]
      apply ih (fun w2 hw2 => hdef w2 (List.mem_cons_of_mem _ hw2))
      obtain ⟨w2, hw2, hag⟩ := hsup
      rcases List.mem_cons.mp hw2 with heq | hr
      · exfalso
        subst heq
        unfold agreeAt at hag
        rw [hc1, hc2] at hag
        simp only [decide_eq_true_eq] at hag
        exact hcc hag
      · exact ⟨w2, hr, hag⟩

theorem collectRemoved_nil {o0 o1 : Nat} {wy : List Word} :
    ∀ {wz : List Word}, (∀ w1 ∈ wz, findSupport o0 o1 w1 wy = .ok true) →
      collectRemoved o0 o1 wy wz = .ok [] := by
  intro wz
  induction wz with
  | nil => intro _; rfl
  | cons wh rest ih =>
    intro hall
    simp only [collectRemoved]
    rw [hall wh (List.mem_cons_self _ _),
      ih (fun w hw => hall w (List.mem_cons_of_mem _ hw))]
    rfl

theorem revise_noop (cw : Crossword) (d : Domains) (x y : Variable)
    (har : arcConsistentB cw d = true)
    (hir : domainsInRange cw d = true) :
    revise cw d x y = .ok (false, d) := by
  unfold revise
  cases hov : overlaps cw x y with
  | none => rfl
  | some p =>
    obtain ⟨o0, o1⟩ := p
    have hmem := overlaps_mem_table hov
    have hentry := List.all_eq_true.mp hir _ hmem
    rw [Bool.and_eq_true] at hentry
    obtain ⟨hrx, hry⟩ := hentry
    have hsup := List.all_eq_true.mp har _ hmem
    unfold arcOKb at hsup
    have hcr : collectRemoved o0 o1 (domGet cw d y) (domGet cw d x) = .ok [] := by
      apply collectRemoved_nil
      intro w1 hw1
      apply findSupport_of_support
      · have := List.all_eq_true.mp hrx w1 hw1
        simp only [decide_eq_true_eq] at this
        obtain ⟨c, hc, _⟩ := wordGet_of_lt this
        exact ⟨c, hc⟩
      · intro w2 hw2
        have := List.all_eq_true.mp hry w2 hw2
        simp only [decide_eq_true_eq] at this
        obtain ⟨c, hc, _⟩ := wordGet_of_lt this
        exact ⟨c, hc⟩
      · have := List.all_eq_true.mp hsup w1 hw1
        rw [List.any_eq_true] at this
        obtain ⟨w2, hw2, hag⟩ := this
        exact ⟨w2, hw2, hag⟩
    simp only []
    rw [hcr]
    simp only []
    rw [filter_not_mem_nil]
    have hset : domSet cw d x (domGet cw d x) = d := by
      unfold domSet domGet
      exact list_set_getD_self d _ []
    rw [hset]
    rfl

/-- C10: on a domain store that is already arc consistent (and whose overlap
positions are in range), running `ac3` again from the full initial arc list
leaves every variable's domain unchanged — the final store is the entry
store — and does not report failure; but the value returned on this success
path is `None` (the function body has no `return True`), not the `True` the
claim asserts. -/
theorem claim_C10 (cw : Crossword) (d : Domains)
    (har : arcConsistentB cw d = true)
    (hir : domainsInRange cw d = true) :
    ac3 cw d (initialArcs cw) = .ok (none, d) ∧
      (none : Option Bool) ≠ some true := by
  refine ⟨?_, by decide⟩
  show ac3Loop cw d (initialArcs cw) = .ok (none, d)
  induction initialArcs cw with
  | nil => rw [ac3Loop]
  | cons arc rest ih =>
    rw [ac3Loop_cons, revise_noop cw d arc.1 arc.2 har hir]
    simp only []
    exact ih

theorem claim_C10_witness :
    ac3 cw2 d2p (initialArcs cw2) = .ok (none, d2p) ∧
      (none : Option Bool) ≠ some true :=
  claim_C10 cw2 d2p (by decide) (by decide)

/-- Every word of every domain has its variable's length (the state
established by `enforce_node_consistency`). -/
def nodeConsistent (cw : Crossword) (d : Domains) : Prop :=
  ∀ v ∈ cw.vars, ∀ w ∈ domGet cw d v, w.length = v.length

/-- Every overlap position lies inside the lengths of its two variables
(well-formedness of the grid geometry, assumed of the Puzzle Model
collaborator by the spec's section 7). -/
def tableInRange (cw : Crossword) : Bool :=
  cw.table.all (fun e => decide (e.2.1 < e.1.1.length) && decide (e.2.2 < e.1.2.length))

theorem findSupport_no_error {o0 o1 : Nat} {w1 : Word}
    (hw1 : o0 < w1.length) :
    ∀ {wy : List Word}, (∀ w2 ∈ wy, o1 < w2.length) →
      ∃ b, findSupport o0 o1 w1 wy = .ok b := by
  intro wy
  induction wy with
  | nil => intro _; exact ⟨false, rfl⟩
  | cons wh rest ih =>
    intro hdef
    obtain ⟨c1, _, hwg1⟩ := wordGet_of_lt hw1
    obtain ⟨c2, _, hwg2⟩ := wordGet_of_lt (hdef wh (List.mem_cons_self _ _))
    simp only [findSupport]
    rw [hwg1, hwg2]
    simp only []
    by_cases hcc : c1 = c2
    · rw [if_pos hcc]
      exact ⟨true, rfl⟩
    · rw [if_neg hcc]
      exact ih (fun w2 hw2 => hdef w2 (List.mem_cons_of_mem _ hw2))

theorem collectRemoved_no_error {o0 o1 : Nat} {wy : List Word}
    (hy : ∀ w2 ∈ wy, o1 < w2.length) :
    ∀ {wz : List Word}, (∀ w1 ∈ wz, o0 < w1.length) →
      ∃ t, collectRemoved o0 o1 wy wz = .ok t := by
  intro wz
  induction wz with
  | nil => intro _; exact ⟨[], rfl⟩
  | cons wh rest ih =>
    intro hx
    obtain ⟨b, hb⟩ := findSupport_no_error (hx wh (List.mem_cons_self _ _)) hy
    obtain ⟨t, ht⟩ := ih (fun w1 hw1 => hx w1 (List.mem_cons_of_mem _ hw1))
    simp only [collectRemoved]
    rw [hb, ht]
    cases b with
    | true => exact ⟨t, rfl⟩
    | false => exact ⟨wh :: t, rfl⟩

theorem revise_no_error (cw : Crossword) (d : Domains) (x y : Variable)
    (htir : tableInRange cw = true)
    (hvars : ∀ e ∈ cw.table, e.1.1 ∈ cw.vars ∧ e.1.2 ∈ cw.vars)
    (hnc : nodeConsistent cw d) :
    ∃ b d', revise cw d x y = .ok (b, d') := by
  unfold revise
  cases hov : overlaps cw x y with
  | none => exact ⟨false, d, rfl⟩
  | some p =>
    obtain ⟨o0, o1⟩ := p
    have hmem : ((x, y), (o0, o1)) ∈ cw.table := overlaps_mem_table hov
    have hr := List.all_eq_true.mp htir _ hmem
    rw [Bool.and_eq_true] at hr
    obtain ⟨hr1, hr2⟩ := hr
    simp only [decide_eq_true_eq] at hr1 hr2
    have hxv := (hvars _ hmem).1
    have hyv := (hvars _ hmem).2
    have hcx : ∀ w1 ∈ domGet cw d x, o0 < w1.length := by
      intro w1 hw1
      rw [hnc x hxv w1 hw1]
      exact hr1
    have hcy : ∀ w2 ∈ domGet cw d y, o1 < w2.length := by
      intro w2 hw2
      rw [hnc y hyv w2 hw2]
      exact hr2
    obtain ⟨t, ht⟩ := collectRemoved_no_error hcy hcx
    simp only []
    rw [ht]
    exact ⟨_, _, rfl⟩

theorem list_set_oob {α : Type} (l : List α) (i : Nat) (a : α) (h : l.length ≤ i) :
    l.set i a = l := by
  induction l generalizing i with
  | nil => simp
  | cons x rest ih =>
    cases i with
    | zero => simp at h
    | succ n =>
      simp only [List.set, List.cons.injEq, true_and]
      exact ih n (by simpa using h)

theorem revise_preserve (cw : Crossword) {d d' : Domains} {x y : Variable} {b : Bool}
    (hvars : ∀ e ∈ cw.table, e.1.1 ∈ cw.vars ∧ e.1.2 ∈ cw.vars)
    (h : revise cw d x y = .ok (b, d')) :
    d'.length = d.length ∧ ∀ v ∈ cw.vars, ∀ w ∈ domGet cw d' v, w ∈ domGet cw d v := by
  unfold revise at h
  split at h
  · cases h
    exact ⟨rfl, fun v _ w hw => hw⟩
  · rename_i o0 o1 heq
    split at h
    · cases h
    · rename_i t hcr
      simp only [Except.ok.injEq, Prod.mk.injEq] at h
      obtain ⟨hb, hd⟩ := h
      subst hd
      have hxv : x ∈ cw.vars := (hvars _ (overlaps_mem_table heq)).1
      constructor
      · unfold domSet
        exact List.length_set _ _ _
      · intro v hv w hw
        by_cases hvx : v = x
        · subst hvx
          by_cases hlt : varIndex cw.vars v < d.length
          · unfold domGet domSet at hw
            rw [get?_set_self _ _ _ hlt] at hw
            simp only [Option.getD_some] at hw
            exact (List.mem_filter.mp hw).1
          · unfold domGet domSet at hw
            rw [list_set_oob _ _ _ (by omega)] at hw
            exact hw
        · rw [domGet_domSet_ne hv hxv hvx] at hw
          exact hw

theorem ac3Loop_props (cw : Crossword)
    (htir : tableInRange cw = true)
    (hvars : ∀ e ∈ cw.table, e.1.1 ∈ cw.vars ∧ e.1.2 ∈ cw.vars) :
    ∀ (d : Domains) (arcs : List Arc),
      nodeConsistent cw d →
      ∃ res dr, ac3Loop cw d arcs = .ok (res, dr) ∧
        nodeConsistent cw dr ∧ dr.length = d.length ∧
        (∀ v ∈ cw.vars, ∀ w ∈ domGet cw dr v, w ∈ domGet cw d v) ∧
        (res = none ∨ res = some false) ∧
        (res = some false → ∃ v ∈ cw.vars, domGet cw dr v = []) := by
  intro d arcs
  induction d, arcs using ac3Loop.induct cw with
  | case1 d =>
    intro hnc
    exact ⟨none, d, by rw [ac3Loop], hnc, rfl, fun v _ w hw => hw, Or.inl rfl, by simp⟩
  | case2 d arc rest e herr =>
    intro hnc
    exfalso
    obtain ⟨b, d', hok⟩ := revise_no_error cw d arc.1 arc.2 htir hvars hnc
    rw [herr] at hok
    cases hok
  | case3 d arc rest d' hrev ih =>
    intro hnc
    have hd : d' = d := revise_ok_false hrev
    subst hd
    obtain ⟨res, dr, hrun, h1, h2, h3, h4, h5⟩ := ih hnc
    exact ⟨res, dr, by rw [ac3Loop_cons, hrev]; simp only []; exact hrun, h1, h2, h3, h4, h5⟩
  | case4 d arc rest d' hrev hlen =>
    intro hnc
    obtain ⟨hL, hsub⟩ := revise_preserve cw hvars hrev
    have hnc2 : nodeConsistent cw d' := fun v hv w hw => hnc v hv w (hsub v hv w hw)
    refine ⟨some false, d', ?_, hnc2, hL, hsub, Or.inr rfl, ?_⟩
    · rw [ac3Loop_cons, hrev]
      simp only []
      rw [if_pos hlen]
    · intro _
      have hosome : ∃ o0 o1, overlaps cw arc.1 arc.2 = some (o0, o1) := by
        cases hov : overlaps cw arc.1 arc.2 with
        | none =>
          exfalso
          unfold revise at hrev
          rw [hov] at hrev
          simp at hrev
        | some p =>
          obtain ⟨a, b⟩ := p
          exact ⟨a, b, rfl⟩
      obtain ⟨o0, o1, hov⟩ := hosome
      exact ⟨arc.1, (overlaps_vars hvars hov).1, List.length_eq_zero.mp hlen⟩
  | case5 d arc rest d' hrev hlen ih =>
    intro hnc
    obtain ⟨hL, hsub⟩ := revise_preserve cw hvars hrev
    have hnc2 : nodeConsistent cw d' := fun v hv w hw => hnc v hv w (hsub v hv w hw)
    obtain ⟨res, dr, hrun, h1, h2, h3, h4, h5⟩ := ih hnc2
    refine ⟨res, dr, ?_, h1, by omega, ?_, h4, h5⟩
    · rw [ac3Loop_cons, hrev]
      simp only []
      rw [if_neg hlen]
      exact hrun
    · intro v hv w hw
      exact hsub v hv w (h3 v hv w hw)

theorem initialDomains_length (cw : Crossword) :
    (initialDomains cw).length = cw.vars.length := List.length_map _ _

theorem enforce_length (cw : Crossword) (d : Domains) (h : d.length = cw.vars.length) :
    (enforceNodeConsistency cw d).length = cw.vars.length := by
  unfold enforceNodeConsistency
  rw [List.length_zipWith, h, Nat.min_self]

theorem enforce_nodeConsistent (cw : Crossword) (d : Domains)
    (h : d.length = cw.vars.length) :
    nodeConsistent cw (enforceNodeConsistency cw d) := by
  intro v hv w hw
  have hEq : domGet cw (enforceNodeConsistency cw d) v =
      (domGet cw d v).filter (fun w => decide (w.length = v.length)) := by
    unfold domGet enforceNodeConsistency
    exact zipWith_domGet cw.vars _ d v hv h
  rw [hEq] at hw
  have := List.of_mem_filter hw
  simpa using this

theorem mem_aSet {a : Assignment} {v : Variable} {w : Word} {e : Variable × Word}
    (h : e ∈ aSet a v w) : e ∈ a ∨ e = (v, w) := by
  induction a with
  | nil => simpa [aSet] using h
  | cons e0 rest ih =>
    by_cases he : e0.1 = v
    · simp only [aSet, if_pos he, List.mem_cons] at h
      rcases h with h | h
      · exact Or.inr h
      · exact Or.inl (List.mem_cons_of_mem _ h)
    · simp only [aSet, if_neg he, List.mem_cons] at h
      rcases h with h | h
      · exact Or.inl (h ▸ List.mem_cons_self _ _)
      · rcases ih h with h2 | h2
        · exact Or.inl (List.mem_cons_of_mem _ h2)
        · exact Or.inr h2

theorem mem_aPop {a : Assignment} {v : Variable} {e : Variable × Word}
    (h : e ∈ aPop a v) : e ∈ a := by
  induction a with
  | nil => simpa [aPop] using h
  | cons e0 rest ih =>
    by_cases he : e0.1 = v
    · simp only [aPop, if_pos he] at h
      exact List.mem_cons_of_mem _ h
    · simp only [aPop, if_neg he, List.mem_cons] at h
      rcases h with h | h
      · exact h ▸ List.mem_cons_self _ _
      · exact List.mem_cons_of_mem _ (ih h)

theorem mem_aKeys_aPop_of_ne {a : Assignment} {v u : Variable}
    (hu : u ∈ aKeys a) (hne : u ≠ v) : u ∈ aKeys (aPop a v) := by
  induction a with
  | nil => simpa [aKeys] using hu
  | cons e0 rest ih =>
    by_cases he : e0.1 = v
    · simp only [aPop, if_pos he]
      simp only [aKeys, List.map_cons, List.mem_cons] at hu
      rcases hu with hu | hu
      · exact absurd (hu.trans he) hne
      · exact hu
    · simp only [aPop, if_neg he, aKeys, List.map_cons, List.mem_cons]
      simp only [aKeys, List.map_cons, List.mem_cons] at hu
      rcases hu with hu | hu
      · exact Or.inl hu
      · exact Or.inr (ih hu)

theorem aHas_aSet_self {a : Assignment} {v : Variable} {w : Word} :
    aHas (aSet a v w) v = true :=
  aHas_iff_mem_aKeys.mpr (mem_aKeys_aSet.mpr (Or.inr rfl))

def unassignedCount (cw : Crossword) (a : Assignment) : Nat :=
  (cw.vars.filter (fun v => !aHas a v)).length

theorem filter_len_le {α : Type} (l : List α) (p q : α → Bool)
    (h : ∀ x ∈ l, p x = true → q x = true) :
    (l.filter p).length ≤ (l.filter q).length := by
  induction l with
  | nil => simp
  | cons x rest ih =>
    have ih2 := ih (fun y hy => h y (List.mem_cons_of_mem _ hy))
    by_cases hp : p x = true
    · have hq := h x (List.mem_cons_self _ _) hp
      rw [List.filter_cons_of_pos hp, List.filter_cons_of_pos hq]
      simpa using ih2
    · rw [List.filter_cons_of_neg hp]
      by_cases hq : q x = true
      · rw [List.filter_cons_of_pos hq]
        simp only [List.length_cons]
        omega
      · rw [List.filter_cons_of_neg hq]
        exact ih2

theorem filter_len_lt {α : Type} (l : List α) (p q : α → Bool) (x : α)
    (hx : x ∈ l) (hq : q x = true) (hp : p x = false)
    (h : ∀ y ∈ l, p y = true → q y = true) :
    (l.filter p).length < (l.filter q).length := by
  induction l with
  | nil => simp at hx
  | cons z rest ih =>
    rcases List.mem_cons.mp hx with hz | hz
    · subst hz
      rw [List.filter_cons_of_neg (by simp [hp]), List.filter_cons_of_pos hq]
      simp only [List.length_cons]
      have := filter_len_le rest p q (fun y hy => h y (List.mem_cons_of_mem _ hy))
      omega
    · have ih2 := ih hz (fun y hy => h y (List.mem_cons_of_mem _ hy))
      by_cases hpz : p z = true
      · have hqz := h z (List.mem_cons_self _ _) hpz
        rw [List.filter_cons_of_pos hpz, List.filter_cons_of_pos hqz]
        simpa using ih2
      · rw [List.filter_cons_of_neg hpz]
        by_cases hqz : q z = true
        · rw [List.filter_cons_of_pos hqz]
          simp only [List.length_cons]
          omega
        · rw [List.filter_cons_of_neg hqz]
          exact ih2

theorem count_le_of_keys (cw : Crossword) {a1 a2 : Assignment}
    (h : ∀ u ∈ aKeys a1, u ∈ aKeys a2) :
    unassignedCount cw a2 ≤ unassignedCount cw a1 := by
  apply filter_len_le
  intro v _ hp
  simp only [Bool.not_eq_true'] at hp ⊢
  cases hv1 : aHas a1 v with
  | false => rfl
  | true =>
    exfalso
    have := aHas_iff_mem_aKeys.mpr (h v (aHas_iff_mem_aKeys.mp hv1))
    rw [this] at hp
    cases hp

theorem count_aSet_lt (cw : Crossword) {a : Assignment} {var : Variable} {w : Word}
    (hvar : var ∈ cw.vars) (hnot : aHas a var = false) :
    unassignedCount cw (aSet a var w) < unassignedCount cw a := by
  apply filter_len_lt _ _ _ var hvar
  · simp [hnot]
  · simp [aHas_aSet_self]
  · intro y _ hp
    simp only [Bool.not_eq_true'] at hp ⊢
    cases hy : aHas a y with
    | false => rfl
    | true =>
      exfalso
      have : aHas (aSet a var w) y = true :=
        aHas_iff_mem_aKeys.mpr (mem_aKeys_aSet.mpr (Or.inl (aHas_iff_mem_aKeys.mp hy)))
      rw [this] at hp
      cases hp

theorem cmGet_cmSet_self (res : CountMap) (w : Word) (k : Nat) :
    cmGet (cmSet res w k) w = some k := by
  induction res with
  | nil => simp [cmSet, cmGet]
  | cons e rest ih =>
    by_cases he : e.1 = w
    · simp [cmSet, if_pos he, cmGet]
    · simp only [cmSet, if_neg he, cmGet]
      exact ih

theorem cmGet_cmSet_ne (res : CountMap) {w w' : Word} (k : Nat) (h : w' ≠ w) :
    cmGet (cmSet res w k) w' = cmGet res w' := by
  induction res with
  | nil =>
    simp only [cmSet, cmGet]
    rw [if_neg (fun hc : w = w' => h hc.symm)]
  | cons e rest ih =>
    by_cases he : e.1 = w
    · simp only [cmSet, if_pos he, cmGet]
      rw [if_neg (fun hc : w = w' => h hc.symm),
        if_neg (show ¬ (e.1 = w') from by rw [he]; exact fun hc => h hc.symm)]
    · simp only [cmSet, if_neg he, cmGet]
      by_cases he2 : e.1 = w'
      · rw [if_pos he2, if_pos he2]
      · rw [if_neg he2, if_neg he2]
        exact ih

theorem agreeAt_true_iff {i j : Nat} {w1 w2 : Word} :
    agreeAt i j w1 w2 = true ↔ ∃ c, w1.get? i = some c ∧ w2.get? j = some c := by
  unfold agreeAt
  cases h1 : w1.get? i with
  | none => simp
  | some c1 =>
    cases h2 : w2.get? j with
    | none => simp
    | some c2 =>
      simp only [decide_eq_true_eq, Option.some.injEq]
      constructor
      · intro h; exact ⟨c1, rfl, h.symm⟩
      · rintro ⟨c, hc1, hc2⟩; rw [hc1, hc2]

theorem countLoop_props {r0 r1 : Nat} {w1 : Word}
    (hw1 : ∃ c, w1.get? r0 = some c) :
    ∀ (ws : List Word) (nb : Nat) (res : CountMap),
      (∀ w2 ∈ ws, ∃ c, w2.get? r1 = some c) →
      ∃ nb2 res2, countLoop r0 r1 w1 ws nb res = .ok (nb2, res2) ∧
        ∀ w, (cmGet res2 w ≠ none ↔
          cmGet res w ≠ none ∨ (w = w1 ∧ ∃ w2 ∈ ws, agreeAt r0 r1 w1 w2 = false)) := by
  intro ws
  induction ws with
  | nil =>
    intro nb res _
    exact ⟨nb, res, rfl, fun w => by simp⟩
  | cons w2 rest ih =>
    intro nb res hdef
    obtain ⟨c1, hc1⟩ := hw1
    obtain ⟨c2, hc2⟩ := hdef w2 (List.mem_cons_self _ _)
    have hwg1 : wordGet w1 r0 = .ok c1 := by unfold wordGet; rw [hc1]
    have hwg2 : wordGet w2 r1 = .ok c2 := by unfold wordGet; rw [hc2]
    simp only [countLoop]
    rw [hwg1, hwg2]
    simp only []
    have hag : agreeAt r0 r1 w1 w2 = decide (c1 = c2) := by
      unfold agreeAt
      rw [hc1, hc2]
    by_cases hcc : c1 = c2
    · rw [if_neg (fun h => h hcc)]
      obtain ⟨nb2, res2, hrun, hiff⟩ :=
        ih nb res (fun u hu => hdef u (List.mem_cons_of_mem _ hu))
      refine ⟨nb2, res2, hrun, fun w => ?_⟩
      rw [hiff w]
      constructor
      · rintro (h | ⟨hw, u, hu, hagf⟩)
        · exact Or.inl h
        · exact Or.inr ⟨hw, u, List.mem_cons_of_mem _ hu, hagf⟩
      · rintro (h | ⟨hw, u, hu, hagf⟩)
        · exact Or.inl h
        · rcases List.mem_cons.mp hu with he | he
          · exfalso
            subst he
            rw [hag] at hagf
            simp [hcc] at hagf
          · exact Or.inr ⟨hw, u, he, hagf⟩
    · rw [if_pos hcc]
      obtain ⟨nb2, res2, hrun, hiff⟩ :=
        ih (nb + 1) (cmSet res w1 (nb + 1)) (fun u hu => hdef u (List.mem_cons_of_mem _ hu))
      refine ⟨nb2, res2, hrun, fun w => ?_⟩
      rw [hiff w]
      constructor
      · rintro (h | ⟨hw, _⟩)
        · by_cases hww : w = w1
          · exact Or.inr ⟨hww, w2, List.mem_cons_self _ _, by rw [hag]; simp [hcc]⟩
          · rw [cmGet_cmSet_ne res _ hww] at h
            exact Or.inl h
        · exact Or.inr ⟨hw, w2, List.mem_cons_self _ _, by rw [hag]; simp [hcc]⟩
      · rintro (h | ⟨hw, _⟩)
        · left
          by_cases hww : w = w1
          · subst hww
            rw [cmGet_cmSet_self]
            simp
          · rw [cmGet_cmSet_ne res _ hww]
            exact h
        · left
          subst hw
          rw [cmGet_cmSet_self]
          simp

theorem wordsLoop_props {r0 r1 : Nat} {wn : List Word}
    (hdefn : ∀ w2 ∈ wn, ∃ c, w2.get? r1 = some c) :
    ∀ (ws1 : List Word) (res : CountMap),
      (∀ w1 ∈ ws1, ∃ c, w1.get? r0 = some c) →
      ∃ res2, wordsLoop r0 r1 wn ws1 res = .ok res2 ∧
        ∀ w, (cmGet res2 w ≠ none ↔
          cmGet res w ≠ none ∨ (w ∈ ws1 ∧ ∃ w2 ∈ wn, agreeAt r0 r1 w w2 = false)) := by
  intro ws1
  induction ws1 with
  | nil =>
    intro res _
    exact ⟨res, rfl, fun w => by simp⟩
  | cons w1 restW ih =>
    intro res hdef1
    obtain ⟨nb2, resA, hrunA, hiffA⟩ :=
      countLoop_props (hdef1 w1 (List.mem_cons_self _ _)) wn 0 res hdefn
    obtain ⟨res2, hrunB, hiffB⟩ :=
      ih resA (fun u hu => hdef1 u (List.mem_cons_of_mem _ hu))
    refine ⟨res2, ?_, fun w => ?_⟩
    · simp only [wordsLoop]
      rw [hrunA]
      exact hrunB
    · rw [hiffB w, hiffA w]
      constructor
      · rintro ((h | ⟨rfl, hex⟩) | ⟨hw, hex⟩)
        · exact Or.inl h
        · exact Or.inr ⟨List.mem_cons_self _ _, hex⟩
        · exact Or.inr ⟨List.mem_cons_of_mem _ hw, hex⟩
      · rintro (h | ⟨hw, hex⟩)
        · exact Or.inl (Or.inl h)
        · rcases List.mem_cons.mp hw with he | he
          · subst he
            exact Or.inl (Or.inr ⟨rfl, hex⟩)
          · exact Or.inr ⟨he, hex⟩

theorem neighborLoop_props (cw : Crossword) (d : Domains) (a : Assignment)
    (var : Variable) (wordVar : List Word) :
    ∀ (ns : List Variable) (res : CountMap),
      (∀ n ∈ ns, ∃ i j, overlaps cw var n = some (i, j) ∧
        (∀ w1 ∈ wordVar, ∃ c, w1.get? i = some c) ∧
        (∀ w2 ∈ domGet cw d n, ∃ c, w2.get? j = some c)) →
      ∃ res2, neighborLoop cw d a var wordVar ns res = .ok res2 ∧
        ∀ w, (cmGet res2 w ≠ none ↔ cmGet res w ≠ none ∨
          (w ∈ wordVar ∧ ∃ n ∈ ns, aHas a n = false ∧ ∃ i j,
            overlaps cw var n = some (i, j) ∧
            ∃ w2 ∈ domGet cw d n, agreeAt i j w w2 = false)) := by
  intro ns
  induction ns with
  | nil =>
    intro res _
    exact ⟨res, rfl, fun w => by simp⟩
  | cons n restN ih =>
    intro res hns
    obtain ⟨i, j, ho, hdefv, hdefn⟩ := hns n (List.mem_cons_self _ _)
    have hns2 := fun m hm => hns m (List.mem_cons_of_mem _ hm)
    simp only [neighborLoop]
    cases hhas : aHas a n with
    | true =>
      rw [if_pos rfl]
      obtain ⟨res2, hrun, hiff⟩ := ih res hns2
      refine ⟨res2, hrun, fun w => ?_⟩
      rw [hiff w]
      constructor
      · rintro (h | ⟨hw, m, hm, hprop⟩)
        · exact Or.inl h
        · exact Or.inr ⟨hw, m, List.mem_cons_of_mem _ hm, hprop⟩
      · rintro (h | ⟨hw, m, hm, hmass, hprop⟩)
        · exact Or.inl h
        · rcases List.mem_cons.mp hm with he | he
          · exfalso
            subst he
            rw [hhas] at hmass
            cases hmass
          · exact Or.inr ⟨hw, m, he, hmass, hprop⟩
    | false =>
      rw [if_neg (by simp)]
      rw [ho]
      simp only []
      obtain ⟨resA, hrunA, hiffA⟩ := wordsLoop_props hdefn wordVar res hdefv
      rw [hrunA]
      obtain ⟨res2, hrunB, hiffB⟩ := ih resA hns2
      refine ⟨res2, hrunB, fun w => ?_⟩
      rw [hiffB w, hiffA w]
      constructor
      · rintro ((h | ⟨hw, w2, hw2, hagf⟩) | ⟨hw, m, hm, hmass, hprop⟩)
        · exact Or.inl h
        · exact Or.inr ⟨hw, n, List.mem_cons_self _ _, hhas, i, j, ho, w2, hw2, hagf⟩
        · exact Or.inr ⟨hw, m, List.mem_cons_of_mem _ hm, hmass, hprop⟩
      · rintro (h | ⟨hw, m, hm, hmass, i2, j2, ho2, w2, hw2, hagf⟩)
        · exact Or.inl (Or.inl h)
        · rcases List.mem_cons.mp hm with he | he
          · subst he
            rw [ho2] at ho
            simp only [Option.some.injEq, Prod.mk.injEq] at ho
            obtain ⟨hi, hj⟩ := ho
            exact Or.inl (Or.inr ⟨hw, w2, hw2, by rw [← hi, ← hj]; exact hagf⟩)
          · exact Or.inr ⟨hw, m, he, hmass, i2, j2, ho2, w2, hw2, hagf⟩

theorem keyUp_no_error (res : CountMap) :
    ∀ (ws : List Word), (∀ w ∈ ws, cmGet res w ≠ none) →
      ∃ keyed, keyUp res ws = .ok keyed ∧ keyed.map (fun p => p.1) = ws := by
  intro ws
  induction ws with
  | nil => intro _; exact ⟨[], rfl, rfl⟩
  | cons w rest ih =>
    intro hall
    obtain ⟨keyed, hk, hm⟩ := ih (fun u hu => hall u (List.mem_cons_of_mem _ hu))
    cases hg : cmGet res w with
    | none => exact absurd hg (hall w (List.mem_cons_self _ _))
    | some k =>
      refine ⟨(w, k) :: keyed, ?_, ?_⟩
      · simp only [keyUp]
        rw [hg, hk]
      · simp [hm]

theorem mem_insertByCount {p q : Word × Nat} :
    ∀ {l : List (Word × Nat)}, q ∈ insertByCount p l ↔ q = p ∨ q ∈ l := by
  intro l
  induction l with
  | nil => simp [insertByCount]
  | cons e rest ih =>
    by_cases he : p.2 ≤ e.2
    · simp only [insertByCount, if_pos he, List.mem_cons]
    · simp only [insertByCount, if_neg he, List.mem_cons]
      rw [ih]
      tauto

theorem mem_sortByCount {q : Word × Nat} :
    ∀ {l : List (Word × Nat)}, q ∈ sortByCount l ↔ q ∈ l := by
  intro l
  induction l with
  | nil => simp [sortByCount]
  | cons e rest ih =>
    simp only [sortByCount, List.mem_cons]
    rw [mem_insertByCount, ih]

/-- The search-state invariant: duplicate-free keys drawn from the puzzle's
variables, every value a member of its variable's current domain. -/
def searchInv (cw : Crossword) (d : Domains) (a : Assignment) : Prop :=
  (aKeys a).Nodup ∧ (∀ u ∈ aKeys a, u ∈ cw.vars) ∧
    ∀ e ∈ a, e.2 ∈ domGet cw d e.1

theorem consistent_no_error (cw : Crossword) (d : Domains) (a : Assignment)
    (htir : tableInRange cw = true)
    (hvars : ∀ e ∈ cw.table, e.1.1 ∈ cw.vars ∧ e.1.2 ∈ cw.vars)
    (hnc : nodeConsistent cw d)
    (hinv : searchInv cw d a) :
    ∃ b, consistent cw a = .ok b := by
  obtain ⟨hknd, hsub, hdom⟩ := hinv
  unfold consistent
  cases hb : pairwiseDistinct (a.map (fun e => e.2)) with
  | false =>
    rw [if_pos (by decide : (!false) = true)]
    exact ⟨false, rfl⟩
  | true =>
    rw [if_neg (by decide : ¬ ((!true) = true))]
    have hhelp : ∀ e ∈ a, ∀ n, ∀ w2, aGet a n = some w2 → ∀ i j,
        overlaps cw e.1 n = some (i, j) → i < e.2.length ∧ j < w2.length := by
      intro e he n w2 hw i j ho
      have hmem := overlaps_mem_table ho
      have hr := List.all_eq_true.mp htir _ hmem
      rw [Bool.and_eq_true] at hr
      simp only [decide_eq_true_eq] at hr
      have he1 : e.1 ∈ cw.vars := hsub e.1 (List.mem_map.mpr ⟨e, he, rfl⟩)
      have hnv : n ∈ cw.vars := (hvars _ hmem).2
      have hlen1 : e.2.length = e.1.length := hnc e.1 he1 e.2 (hdom e he)
      have hlen2 : w2.length = n.length := hnc n hnv w2 (hdom (n, w2) (aGet_mem hw))
      constructor
      · rw [hlen1]
        exact hr.1
      · rw [hlen2]
        exact hr.2
    rw [consistentItems_eval cw a a hhelp]
    exact ⟨_, rfl⟩

theorem orderDomainValues_nil (cw : Crossword) (d : Domains) (var : Variable)
    (a : Assignment) (hemp : domGet cw d var = []) :
    orderDomainValues cw d var a = .ok [] := by
  unfold orderDomainValues
  rw [hemp]
  have hrun : ∀ (ns : List Variable), (∀ n ∈ ns, (overlaps cw var n).isSome = true) →
      ∀ res, neighborLoop cw d a var [] ns res = .ok res := by
    intro ns
    induction ns with
    | nil => intro _ res; rfl
    | cons n rest ih =>
      intro hsome res
      simp only [neighborLoop]
      cases hhas : aHas a n with
      | true =>
        rw [if_pos rfl]
        exact ih (fun m hm => hsome m (List.mem_cons_of_mem _ hm)) res
      | false =>
        rw [if_neg (by simp)]
        obtain ⟨⟨i, j⟩, ho⟩ := Option.isSome_iff_exists.mp (hsome n (List.mem_cons_self _ _))
        rw [ho]
        simp only [wordsLoop]
        exact ih (fun m hm => hsome m (List.mem_cons_of_mem _ hm)) res
  rw [hrun (neighbors cw var) (fun n hn => (mem_neighbors.mp hn).2.2) []]
  rfl

theorem order_no_error (cw : Crossword) (d : Domains) (var : Variable) (a : Assignment)
    (htir : tableInRange cw = true)
    (hvars : ∀ e ∈ cw.table, e.1.1 ∈ cw.vars ∧ e.1.2 ∈ cw.vars)
    (hnc : nodeConsistent cw d)
    (hac : ∀ x y, arcOK cw d x y)
    (hvarv : var ∈ cw.vars) :
    ∃ vals, orderDomainValues cw d var a = .ok vals ∧
      ∀ w ∈ vals, w ∈ domGet cw d var := by
  unfold orderDomainValues
  have hns : ∀ n ∈ neighbors cw var, ∃ i j, overlaps cw var n = some (i, j) ∧
      (∀ w1 ∈ domGet cw d var, ∃ c, w1.get? i = some c) ∧
      (∀ w2 ∈ domGet cw d n, ∃ c, w2.get? j = some c) := by
    intro n hn
    obtain ⟨hnv, hne, hsome⟩ := mem_neighbors.mp hn
    obtain ⟨⟨i, j⟩, ho⟩ := Option.isSome_iff_exists.mp hsome
    have hmem := overlaps_mem_table ho
    have hr := List.all_eq_true.mp htir _ hmem
    rw [Bool.and_eq_true] at hr
    simp only [decide_eq_true_eq] at hr
    refine ⟨i, j, ho, ?_, ?_⟩
    · intro w1 hw1
      have hl : i < w1.length := by
        rw [hnc var hvarv w1 hw1]
        exact hr.1
      obtain ⟨c, hc, _⟩ := wordGet_of_lt hl
      exact ⟨c, hc⟩
    · intro w2 hw2
      have hl : j < w2.length := by
        rw [hnc n hnv w2 hw2]
        exact hr.2
      obtain ⟨c, hc, _⟩ := wordGet_of_lt hl
      exact ⟨c, hc⟩
  obtain ⟨res2, hrun, hiff⟩ :=
    neighborLoop_props cw d a var (domGet cw d var) (neighbors cw var) [] hns
  rw [hrun]
  simp only []
  by_cases hres : res2.length = 0
  · rw [if_pos hres]
    exact ⟨_, rfl, fun w hw => hw⟩
  · rw [if_neg hres]
    have hall : ∀ w ∈ domGet cw d var, cmGet res2 w ≠ none := by
      obtain ⟨e0, res2t, he0⟩ : ∃ e0 res2t, res2 = e0 :: res2t := by
        cases res2 with
        | nil => simp at hres
        | cons e0 t => exact ⟨e0, t, rfl⟩
      have hhead : cmGet res2 e0.1 ≠ none := by
        rw [he0]
        simp [cmGet]
      rcases (hiff e0.1).mp hhead with habs |
        ⟨hwv, nd, hnd, hnass, i, j, ho, w2d, hw2d, hdis⟩
      · exact absurd rfl habs
      intro w hw
      rw [hiff w]
      right
      refine ⟨hw, nd, hnd, hnass, i, j, ho, ?_⟩
      by_contra hcon
      push_neg at hcon
      have huni : ∀ w2 ∈ domGet cw d nd, agreeAt i j w w2 = true := by
        intro w2 hw2
        cases hb : agreeAt i j w w2 with
        | false => exact absurd hb (hcon w2 hw2)
        | true => rfl
      obtain ⟨u, hu, hagu⟩ := hac var nd i j ho w hw
      obtain ⟨ud, hud, hagud⟩ := hac var nd i j ho e0.1 hwv
      obtain ⟨c, hci, hcj⟩ := agreeAt_true_iff.mp hagu
      have hgetc : ∀ w2 ∈ domGet cw d nd, w2.get? j = some c := by
        intro w2 hw2
        obtain ⟨c2, hc2i, hc2j⟩ := agreeAt_true_iff.mp (huni w2 hw2)
        rw [hci] at hc2i
        simp only [Option.some.injEq] at hc2i
        rw [hc2i]
        exact hc2j
      obtain ⟨cd, hcdi, hcdj⟩ := agreeAt_true_iff.mp hagud
      have hcd : cd = c := by
        have := hgetc ud hud
        rw [hcdj] at this
        simpa using this
      have hagr : agreeAt i j e0.1 w2d = true := by
        rw [agreeAt_true_iff]
        exact ⟨c, by rw [hcdi, hcd], hgetc w2d hw2d⟩
      rw [hdis] at hagr
      cases hagr
    obtain ⟨keyed, hku, hmap⟩ := keyUp_no_error res2 (domGet cw d var) hall
    rw [hku]
    refine ⟨_, rfl, ?_⟩
    intro w hw
    rw [List.mem_map] at hw
    obtain ⟨p, hp, hp1⟩ := hw
    rw [mem_sortByCount] at hp
    rw [← hmap, ← hp1]
    exact List.mem_map.mpr ⟨p, hp, rfl⟩

theorem foldlMin_le (f : Variable → Nat) :
    ∀ (l : List Variable) (b : Nat),
      l.foldl (fun acc v => min acc (f v)) b ≤ b ∧
        ∀ v ∈ l, l.foldl (fun acc v => min acc (f v)) b ≤ f v := by
  intro l
  induction l with
  | nil => intro b; exact ⟨Nat.le_refl b, by simp⟩
  | cons x xs ih =>
    intro b
    simp only [List.foldl_cons]
    obtain ⟨h1, h2⟩ := ih (min b (f x))
    refine ⟨le_trans h1 (Nat.min_le_left _ _), ?_⟩
    intro v hv
    rcases List.mem_cons.mp hv with hv | hv
    · subst hv
      exact le_trans h1 (Nat.min_le_right _ _)
    · exact h2 v hv

theorem foldlMin_attained (f : Variable → Nat) :
    ∀ (l : List Variable) (b : Nat),
      l.foldl (fun acc v => min acc (f v)) b = b ∨
        ∃ v ∈ l, l.foldl (fun acc v => min acc (f v)) b = f v := by
  intro l
  induction l with
  | nil => intro b; exact Or.inl rfl
  | cons x xs ih =>
    intro b
    simp only [List.foldl_cons]
    rcases ih (min b (f x)) with h | ⟨v, hv, h⟩
    · by_cases hbf : b ≤ f x
      · left
        rw [h]
        exact Nat.min_eq_left hbf
      · right
        refine ⟨x, List.mem_cons_self _ _, ?_⟩
        rw [h]
        exact Nat.min_eq_right (Nat.le_of_not_le hbf)
    · exact Or.inr ⟨v, List.mem_cons_of_mem _ hv, h⟩

theorem select_ok (cw : Crossword) (d : Domains) (a : Assignment)
    (hinc : assignmentComplete cw a = false) :
    ∃ var, selectUnassignedVariable cw d a = some var ∧
      ∀ u ∈ cw.vars, aHas a u = false →
        (domGet cw d var).length ≤ (domGet cw d u).length := by
  have hex : ∃ v ∈ cw.vars, aHas a v = false := by
    by_contra hcon
    push_neg at hcon
    have : assignmentComplete cw a = true := by
      unfold assignmentComplete
      rw [List.all_eq_true]
      intro v hv
      cases hh : aHas a v with
      | true => rfl
      | false => exact absurd hh (hcon v hv)
    rw [this] at hinc
    cases hinc
  obtain ⟨v, hv, hvun⟩ := hex
  unfold selectUnassignedVariable
  cases hfil : cw.vars.filter (fun v => !aHas a v) with
  | nil =>
    exfalso
    have : v ∈ cw.vars.filter (fun v => !aHas a v) :=
      List.mem_filter.mpr ⟨hv, by simp [hvun]⟩
    rw [hfil] at this
    simp at this
  | cons u us =>
    simp only []
    have hatt : ∃ c ∈ u :: us, (domGet cw d c).length = minDomLen cw d u us := by
      rcases foldlMin_attained (fun v => (domGet cw d v).length) us
          (domGet cw d u).length with h | ⟨c, hc, h⟩
      · exact ⟨u, List.mem_cons_self _ _, h.symm⟩
      · exact ⟨c, List.mem_cons_of_mem _ hc, h.symm⟩
    obtain ⟨c0, hc0, hc0len⟩ := hatt
    cases hfil2 : (u :: us).filter
        (fun v => decide ((domGet cw d v).length = minDomLen cw d u us)) with
    | nil =>
      exfalso
      have : c0 ∈ (u :: us).filter
          (fun v => decide ((domGet cw d v).length = minDomLen cw d u us)) :=
        List.mem_filter.mpr ⟨hc0, by simp [hc0len]⟩
      rw [hfil2] at this
      simp at this
    | cons c cs =>
      simp only []
      refine ⟨pickMaxDegree cw c cs, rfl, ?_⟩
      intro w hw hwun
      have hpk : pickMaxDegree cw c cs ∈ (u :: us).filter
          (fun v => decide ((domGet cw d v).length = minDomLen cw d u us)) := by
        rw [hfil2]
        exact pickMaxDegree_mem cw c cs
      have hlen : (domGet cw d (pickMaxDegree cw c cs)).length = minDomLen cw d u us := by
        have := (List.mem_filter.mp hpk).2
        simpa using this
      have hwmem : w ∈ u :: us := by
        have : w ∈ cw.vars.filter (fun v => !aHas a v) :=
          List.mem_filter.mpr ⟨hw, by simp [hwun]⟩
        rw [hfil] at this
        exact this
      rw [hlen]
      rcases List.mem_cons.mp hwmem with hwm | hwm
      · subst hwm
        exact (foldlMin_le (fun v => (domGet cw d v).length) us _).1
      · exact (foldlMin_le (fun v => (domGet cw d v).length) us _).2 w hwm

theorem aSet_aSet (a : Assignment) (v : Variable) (w1 w2 : Word) :
    aSet (aSet a v w1) v w2 = aSet a v w2 := by
  induction a with
  | nil => simp [aSet]
  | cons e rest ih =>
    by_cases hev : e.1 = v
    · simp [aSet, if_pos hev]
    · simp only [aSet, if_neg hev]
      rw [ih]

theorem btLoopNoCrash (cw : Crossword) (d : Domains)
    (htir : tableInRange cw = true)
    (hvars : ∀ e ∈ cw.table, e.1.1 ∈ cw.vars ∧ e.1.2 ∈ cw.vars)
    (hnc : nodeConsistent cw d)
    (var : Variable) (hvarv : var ∈ cw.vars) (fuel : Nat)
    (bt : Assignment → Except Unit (Option Assignment × Assignment))
    (hbt : ∀ a1, searchInv cw d a1 → unassignedCount cw a1 < fuel →
      ∃ res s, bt a1 = .ok (res, s) ∧ searchInv cw d s ∧
        ∀ u ∈ aKeys a1, u ∈ aKeys s) :
    ∀ (vals : List Word) (a a0 : Assignment),
      searchInv cw d a →
      (∀ w ∈ vals, w ∈ domGet cw d var) →
      (∀ u ∈ aKeys a0, u ∈ aKeys a) →
      aHas a0 var = false →
      (∀ w, unassignedCount cw (aSet a var w) < fuel) →
      ∃ res s, btLoop cw bt var vals a = .ok (res, s) ∧ searchInv cw d s ∧
        ∀ u ∈ aKeys a0, u ∈ aKeys s := by
  intro vals
  induction vals with
  | nil =>
    intro a a0 hinv _ hsub _ _
    exact ⟨none, a, rfl, hinv, hsub⟩
  | cons v rest ih =>
    intro a a0 hinv hvals hsub h0un hcnt
    have hinvS : searchInv cw d (aSet a var v) := by
      refine ⟨aSet_nodup hinv.1, ?_, ?_⟩
      · intro u hu
        rcases mem_aKeys_aSet.mp hu with hu | hu
        · exact hinv.2.1 u hu
        · exact hu ▸ hvarv
      · intro e he
        rcases mem_aSet he with he | he
        · exact hinv.2.2 e he
        · rw [he]
          exact hvals v (List.mem_cons_self _ _)
    obtain ⟨bcons, hcons⟩ := consistent_no_error cw d (aSet a var v) htir hvars hnc hinvS
    have hvals' : ∀ w ∈ rest, w ∈ domGet cw d var :=
      fun w hw => hvals w (List.mem_cons_of_mem _ hw)
    simp only [btLoop]
    rw [hcons]
    cases bcons with
    | false =>
      simp only []
      exact ih (aSet a var v) a0 hinvS hvals'
        (fun u hu => mem_aKeys_aSet.mpr (Or.inl (hsub u hu))) h0un
        (fun w => by rw [aSet_aSet]; exact hcnt w)
    | true =>
      simp only []
      obtain ⟨res1, s1, hbtr, hinv1, hkeys1⟩ := hbt (aSet a var v) hinvS (hcnt v)
      rw [hbtr]
      have hsub1 : ∀ u ∈ aKeys a, u ∈ aKeys s1 :=
        fun u hu => hkeys1 u (mem_aKeys_aSet.mpr (Or.inl hu))
      cases res1 with
      | some r =>
        exact ⟨some r, s1, rfl, hinv1, fun u hu => hsub1 u (hsub u hu)⟩
      | none =>
        simp only []
        have hinvP : searchInv cw d (aPop s1 var) := by
          refine ⟨aPop_nodup hinv1.1, ?_, ?_⟩
          · intro u hu
            exact hinv1.2.1 u (mem_aKeys_aPop hu)
          · intro e he
            exact hinv1.2.2 e (mem_aPop he)
        have hsubP : ∀ u ∈ aKeys a0, u ∈ aKeys (aPop s1 var) := by
          intro u hu
          have hne : u ≠ var := by
            intro heq
            subst heq
            rw [aHas_iff_mem_aKeys.mpr hu] at h0un
            cases h0un
          exact mem_aKeys_aPop_of_ne (hsub1 u (hsub u hu)) hne
        refine ih (aPop s1 var) a0 hinvP hvals' hsubP h0un ?_
        intro w
        have hks : ∀ u ∈ aKeys (aSet a var v), u ∈ aKeys (aSet (aPop s1 var) var w) := by
          intro u hu
          rcases mem_aKeys_aSet.mp hu with hu | hu
          · by_cases huv : u = var
            · exact mem_aKeys_aSet.mpr (Or.inr huv)
            · exact mem_aKeys_aSet.mpr
                (Or.inl (mem_aKeys_aPop_of_ne (hsub1 u hu) huv))
          · exact mem_aKeys_aSet.mpr (Or.inr hu)
        exact lt_of_le_of_lt (count_le_of_keys cw hks) (hcnt v)

theorem btNoCrash (cw : Crossword) (d : Domains)
    (htir : tableInRange cw = true)
    (hvars : ∀ e ∈ cw.table, e.1.1 ∈ cw.vars ∧ e.1.2 ∈ cw.vars)
    (hnc : nodeConsistent cw d)
    (hac : ∀ x y, arcOK cw d x y) :
    ∀ (fuel : Nat) (a : Assignment), searchInv cw d a →
      unassignedCount cw a < fuel →
      ∃ res s, backtrackF cw d fuel a = .ok (res, s) ∧ searchInv cw d s ∧
        ∀ u ∈ aKeys a, u ∈ aKeys s := by
  intro fuel
  induction fuel with
  | zero =>
    intro a _ h
    exact absurd h (Nat.not_lt_zero _)
  | succ fuel ih =>
    intro a hinv hcount
    cases hcomp : assignmentComplete cw a with
    | true =>
      refine ⟨some a, a, ?_, hinv, fun u hu => hu⟩
      simp only [backtrackF]
      rw [if_pos hcomp]
    | false =>
      obtain ⟨var, hsel, _⟩ := select_ok cw d a hcomp
      obtain ⟨hvarv, hvarun⟩ := select_mem hsel
      obtain ⟨vals, hord, hvals⟩ := order_no_error cw d var a htir hvars hnc hac hvarv
      have hstep : backtrackF cw d (fuel + 1) a =
          btLoop cw (backtrackF cw d fuel) var vals a := by
        simp only [backtrackF]
        rw [if_neg (by simp [hcomp]), hsel]
        simp only []
        rw [hord]
      rw [hstep]
      refine btLoopNoCrash cw d htir hvars hnc var hvarv fuel _
        (fun a1 h1 h2 => ih a1 h1 h2) vals a a hinv hvals
        (fun u hu => hu) hvarun ?_
      intro w
      exact lt_of_lt_of_le (count_aSet_lt cw hvarv hvarun) (Nat.lt_succ_iff.mp hcount)

theorem btEmptyDomain (cw : Crossword) (d : Domains) (v0 : Variable)
    (hv0 : v0 ∈ cw.vars) (hemp : domGet cw d v0 = [])
    (a : Assignment) (hun : aHas a v0 = false) (fuel : Nat) :
    backtrackF cw d (fuel + 1) a = .ok (none, a) := by
  have hcomp : assignmentComplete cw a = false := by
    cases hc : assignmentComplete cw a with
    | false => rfl
    | true =>
      exfalso
      have := List.all_eq_true.mp hc v0 hv0
      rw [hun] at this
      cases this
  obtain ⟨var, hsel, hmin⟩ := select_ok cw d a hcomp
  have hvaremp : domGet cw d var = [] := by
    have := hmin v0 hv0 hun
    rw [hemp] at this
    simpa using List.length_eq_zero.mp (Nat.le_zero.mp this)
  simp only [backtrackF]
  rw [if_neg (by simp [hcomp]), hsel]
  simp only []
  rw [orderDomainValues_nil cw d var a hvaremp]
  rfl

/-- C3: for every well-formed puzzle instance (overlap table symmetric with
swapped positions, irreflexive, keyed by the puzzle's variables, and with
every overlap position inside its two variables' lengths), `solve()` runs to
completion without raising: it returns either an assignment or the explicit
no-solution result `none`, never an exception — in particular the value
ordering inside the search never faults. -/
theorem claim_C3 (cw : Crossword)
    (htir : tableInRange cw = true)
    (hsymb : cw.table.all
      (fun e => decide (overlaps cw e.1.2 e.1.1 = some (e.2.2, e.2.1))) = true)
    (hirr : cw.table.all (fun e => decide (e.1.1 ≠ e.1.2)) = true)
    (hvarsb : cw.table.all
      (fun e => decide (e.1.1 ∈ cw.vars) && decide (e.1.2 ∈ cw.vars)) = true) :
    ∃ res : Option Assignment, solve cw = .ok res := by
  have hvars : ∀ e ∈ cw.table, e.1.1 ∈ cw.vars ∧ e.1.2 ∈ cw.vars := by
    intro e he
    have := List.all_eq_true.mp hvarsb e he
    rw [Bool.and_eq_true] at this
    exact ⟨of_decide_eq_true this.1, of_decide_eq_true this.2⟩
  have hsym : ∀ e ∈ cw.table, overlaps cw e.1.2 e.1.1 = some (e.2.2, e.2.1) := by
    intro e he
    exact of_decide_eq_true (List.all_eq_true.mp hsymb e he)
  have hd1len : (enforceNodeConsistency cw (initialDomains cw)).length =
      cw.vars.length := enforce_length cw _ (initialDomains_length cw)
  have hnc1 : nodeConsistent cw (enforceNodeConsistency cw (initialDomains cw)) :=
    enforce_nodeConsistent cw _ (initialDomains_length cw)
  obtain ⟨res0, d2, hac3, hnc2, _, _, hres0, hemp0⟩ :=
    ac3Loop_props cw htir hvars (enforceNodeConsistency cw (initialDomains cw))
      (initialArcs cw) hnc1
  have hinv0 : searchInv cw d2 [] := ⟨List.nodup_nil, by simp [aKeys], by simp⟩
  have hcnt0 : unassignedCount cw [] < cw.vars.length + 1 :=
    Nat.lt_succ_of_le (List.length_filter_le _ _)
  have hsolve : solve cw = (match backtrackF cw d2 (cw.vars.length + 1) [] with
      | .error e => .error e
      | .ok (res, _) => .ok res) := by
    unfold solve
    rw [show ac3 cw (enforceNodeConsistency cw (initialDomains cw)) (initialArcs cw) =
      .ok (res0, d2) from hac3]
  rcases hres0 with hres0 | hres0
  · subst hres0
    have hacOK : ∀ x y, arcOK cw d2 x y :=
      ac3Loop_sound cw hsym hirr hvars _ (initialArcs cw) d2 hd1len hac3
        (ac3Inv_initial cw _)
    obtain ⟨res, s, hbt, _, _⟩ :=
      btNoCrash cw d2 htir hvars hnc2 hacOK (cw.vars.length + 1) [] hinv0 hcnt0
    refine ⟨res, ?_⟩
    rw [hsolve, hbt]
  · obtain ⟨v0, hv0, hempv⟩ := hemp0 hres0
    refine ⟨none, ?_⟩
    rw [hsolve, btEmptyDomain cw d2 v0 hv0 hempv [] rfl cw.vars.length]

theorem claim_C3_witness : ∃ res : Option Assignment, solve cw2 = .ok res :=
  claim_C3 cw2 (by decide) (by decide) (by decide) (by decide)
